import Mathlib

/-!
# CWDSVMOcas (libshogun/classifier/svm/WDSVMOcas.h)

A shallow embedding of the inline member functions of `CWDSVMOcas` and a
verification of the scorer `classify_example`, of `set_normalization_const`
and of the accessors.

Conventions of the embedding

* `float32_t` / `float64_t` values live in a field `α` (exact arithmetic; the
  development is instantiated at `ℚ` for evaluation and at `ℝ` where a square
  root is taken).  Division is the field division.
* `int32_t` values are integers (`Int`).  Signed overflow is undefined
  behaviour in C++: `classify_example` and its loops compute in exact integers
  and describe the executions without overflow, while `classify_example_int32`
  and its loops check every `int32_t` operation of the scorer against the range
  of `int32_t` and end the run at an overflow; the two agree where nothing
  overflows (`classify_example_int32_run`).
  Loop counters start at `0` and only grow, so they are kept as `Nat` and cast
  where the source compares them with an `int32_t` field.
* `set_normalization_const` and `norm_loop` are the exact reading of lines
  198-207; `set_normalization_const_fl` and `norm_loop_fl` take the rounding of
  the `float32_t` products of line 203 as a parameter and are the exact reading
  when it is the identity (`set_normalization_const_fl_id`).
* A pointer field is `Option (List _)`: `none` is the NULL pointer, `some xs`
  a block holding `xs`.  Every read is checked: reading through NULL or outside
  the block ends the run with an error instead of a value.
* `ASSERT(c)` ends the run with `Err.assertion` when `c` is false.
-/

namespace WDSVMOcas

/-- Ways in which a run of the embedded code ends without a value. -/
inductive Err where
  /-- An `ASSERT` of the source failed. -/
  | assertion
  /-- Read through a NULL pointer. -/
  | null_pointer
  /-- Read outside the block a pointer refers to. -/
  | out_of_bounds
  /-- A loop of the embedding was given too little fuel (never happens for
  the fuel the callers pass, see `classify_example_ne_fuel`). -/
  | fuel
  /-- An `int32_t` operation left the range of `int32_t` (signed overflow). -/
  | overflow
  deriving DecidableEq, Repr

deriving instance DecidableEq for Except

/-- Modelled from the spec: the string feature provider `CStringFeatures<uint8_t>`
(features/StringFeatures.h, included by the header, is missing).  Spec, section 6:
it exposes, per index, the raw symbol sequence and its length.  Symbols are
`uint8_t` values, kept as natural numbers. -/
structure CStringFeatures where
  /-- The stored strings, one per example. -/
  vectors : List (List Nat)
  deriving DecidableEq, Repr

/-- Modelled from the spec: `get_feature_vector(num, len)` hands out the symbol
sequence of example `num` and stores its length in `len`; an index without a
string ends the run. -/
def CStringFeatures.get_feature_vector (f : CStringFeatures) (num : Int) :
    Except Err (List Nat × Int) :=
  if num < 0 then .error .out_of_bounds
  else
    match f.vectors[num.toNat]? with
    | some vec => .ok (vec, (vec.length : Int))
    | none => .error .out_of_bounds

/-- The data members of `CWDSVMOcas` (lines 288-339 of the header). -/
structure CWDSVMOcas (α : Type) where
  /-- The member `features`. -/
  features : Option CStringFeatures
  /-- The member `use_bias`: if bias shall be used. -/
  use_bias : Bool
  /-- The member `bufsize`. -/
  bufsize : Int
  /-- The member `C1`. -/
  C1 : α
  /-- The member `C2`. -/
  C2 : α
  /-- The member `epsilon`. -/
  epsilon : α
  /-- The member `method` (the tag of an `E_SVM_TYPE`). -/
  method : Int
  /-- The member `degree`. -/
  degree : Int
  /-- The member `from_degree`. -/
  from_degree : Int
  /-- The member `wd_weights`. -/
  wd_weights : Option (List α)
  /-- The member `num_vec`. -/
  num_vec : Int
  /-- The member `string_length`: length of string in vector. -/
  string_length : Int
  /-- The member `alphabet_size`. -/
  alphabet_size : Int
  /-- The member `normalization_const`. -/
  normalization_const : α
  /-- The member `bias`. -/
  bias : α
  /-- The member `old_bias`. -/
  old_bias : α
  /-- The member `w_offsets`. -/
  w_offsets : Option (List Int)
  /-- The member `w_dim`. -/
  w_dim : Int
  /-- The member `w_dim_single_char`: w dim of a single char. -/
  w_dim_single_char : Int
  /-- The member `w`. -/
  w : Option (List α)
  /-- The member `old_w`. -/
  old_w : Option (List α)
  /-- The member `lab`. -/
  lab : Option (List α)
  /-- The member `cuts`. -/
  cuts : Option (List (List α))
  /-- The member `cp_bias`. -/
  cp_bias : Option (List α)
  deriving DecidableEq, Repr

/-- The read `p[i]` through the pointer `p`. -/
def read_at {β : Type} (p : Option (List β)) (i : Int) : Except Err β :=
  match p with
  | none => .error .null_pointer
  | some xs =>
    if i < 0 then .error .out_of_bounds
    else
      match xs[i.toNat]? with
      | some x => .ok x
      | none => .error .out_of_bounds

section accessors

variable {α : Type}

/-- Line 65: `set_C(c1, c2) { C1=c1; C2=c2; }`. -/
def set_C (c1 c2 : α) (s : CWDSVMOcas α) : CWDSVMOcas α :=
  { s with C1 := c1, C2 := c2 }

/-- Line 71: `get_C1() { return C1; }`. -/
def get_C1 (s : CWDSVMOcas α) : α := s.C1

/-- Line 77: `get_C2() { return C2; }`. -/
def get_C2 (s : CWDSVMOcas α) : α := s.C2

/-- Line 83: `set_epsilon(eps) { epsilon=eps; }`. -/
def set_epsilon (eps : α) (s : CWDSVMOcas α) : CWDSVMOcas α :=
  { s with epsilon := eps }

/-- Line 89: `get_epsilon() { return epsilon; }`. -/
def get_epsilon (s : CWDSVMOcas α) : α := s.epsilon

/-- Lines 95-100: `set_features(feat)`; the reference counting of
`SG_UNREF` / `SG_REF` has no effect on the members and is left out. -/
def set_features (feat : Option CStringFeatures) (s : CWDSVMOcas α) : CWDSVMOcas α :=
  { s with features := feat }

/-- Line 116: `set_bias_enabled(enable_bias) { use_bias=enable_bias; }`. -/
def set_bias_enabled (enable_bias : Bool) (s : CWDSVMOcas α) : CWDSVMOcas α :=
  { s with use_bias := enable_bias }

/-- Line 122: `get_bias_enabled() { return use_bias; }`. -/
def get_bias_enabled (s : CWDSVMOcas α) : Bool := s.use_bias

/-- Line 128: `set_bufsize(sz) { bufsize=sz; }`. -/
def set_bufsize (sz : Int) (s : CWDSVMOcas α) : CWDSVMOcas α :=
  { s with bufsize := sz }

/-- Line 134: `get_bufsize() { return bufsize; }`. -/
def get_bufsize (s : CWDSVMOcas α) : Int := s.bufsize

/-- Lines 141-145: `set_degree(d, from_d) { degree=d; from_degree=from_d; }`. -/
def set_degree (d from_d : Int) (s : CWDSVMOcas α) : CWDSVMOcas α :=
  { s with degree := d, from_degree := from_d }

/-- Line 151: `get_degree() { return degree; }`. -/
def get_degree (s : CWDSVMOcas α) : Int := s.degree

/-- Line 213: `get_normalization_const() { return normalization_const; }`. -/
def get_normalization_const (s : CWDSVMOcas α) : α := s.normalization_const

/-- Every member but the hyperparameters `C1`, `C2`, `epsilon` and `bufsize`,
in the order of the header. -/
def other_members (s : CWDSVMOcas α) :=
  (s.features, s.use_bias, s.method, s.degree, s.from_degree, s.wd_weights, s.num_vec,
    s.string_length, s.alphabet_size, s.normalization_const, s.bias, s.old_bias,
    s.w_offsets, s.w_dim, s.w_dim_single_char, s.w, s.old_w, s.lab, s.cuts, s.cp_bias)

end accessors

section scorer

variable {α : Type} [Field α]

/-- The variables the inner loop of `classify_example` updates: the running
`sum` (declared at line 178) and the per-position `offs` and `val`
(lines 185-186). -/
structure LoopVars (α : Type) where
  /-- The variable `sum`. -/
  sum : α
  /-- The variable `offs`. -/
  offs : Int
  /-- The variable `val`. -/
  val : Int
  deriving DecidableEq, Repr

/-- Line 189, `val=val*alphabet_size + vec[j+k];`. -/
def roll_val (s : CWDSVMOcas α) (vec : List Nat) (j k : Nat) (v : LoopVars α) :
    Except Err (LoopVars α) :=
  (read_at (some vec) ((j : Int) + (k : Int))).bind fun c =>
  .ok { v with val := v.val * s.alphabet_size + (c : Int) }

/-- The subscript `offs+val` of the read `w[offs+val]` at line 190. -/
def w_subscript (v : LoopVars α) : Int := v.offs + v.val

/-- Lines 189-191, the body of the inner loop at position `j` and index `k`:
```
val=val*alphabet_size + vec[j+k];
sum+=wd_weights[k] * w[offs+val];
offs+=w_offsets[k];
```
-/
def inner_body (s : CWDSVMOcas α) (vec : List Nat) (j k : Nat) (v : LoopVars α) :
    Except Err (LoopVars α) :=
  (roll_val s vec j k v).bind fun v1 =>
  (read_at s.wd_weights (k : Int)).bind fun wk =>
  (read_at s.w (w_subscript v1)).bind fun wv =>
  (read_at s.w_offsets (k : Int)).bind fun ok =>
  .ok { sum := v1.sum + wk * wv
        offs := v1.offs + ok
        val := v1.val }

/-- The loop variables at the head of round `k` of the inner loop at position
`j`, entered with the running sum `sum0`: `offs=w_dim_single_char*j` and `val=0`
(lines 185-186) at the head of round `0`, then one run of the body per round. -/
def inner_vars (s : CWDSVMOcas α) (vec : List Nat) (j : Nat) (sum0 : α) :
    Nat → Except Err (LoopVars α)
  | 0 => .ok { sum := sum0, offs := s.w_dim_single_char * (j : Int), val := 0 }
  | k + 1 => (inner_vars s vec j sum0 k).bind fun v => inner_body s vec j k v

/-- Line 187, `for (int32_t k=0; (j+k<string_length) && (k<degree); k++)`, from
the index `k` on.  The first argument is fuel. -/
def inner_loop (s : CWDSVMOcas α) (vec : List Nat) (j : Nat) :
    Nat → Nat → LoopVars α → Except Err (LoopVars α)
  | 0, k, v =>
    if (j : Int) + (k : Int) < s.string_length ∧ (k : Int) < s.degree then .error .fuel
    else .ok v
  | fuel + 1, k, v =>
    if (j : Int) + (k : Int) < s.string_length ∧ (k : Int) < s.degree then
      (inner_body s vec j k v).bind fun v1 => inner_loop s vec j fuel (k + 1) v1
    else .ok v

/-- Lines 183-193, `for (int32_t j=0; j<string_length; j++)`, from the position
`j` on, with `offs=w_dim_single_char*j` and `val=0` at the head of every round.
The first argument is fuel. -/
def outer_loop (s : CWDSVMOcas α) (vec : List Nat) : Nat → Nat → α → Except Err α
  | 0, j, sum =>
    if (j : Int) < s.string_length then .error .fuel else .ok sum
  | fuel + 1, j, sum =>
    if (j : Int) < s.string_length then
      (inner_loop s vec j s.string_length.toNat 0
          { sum := sum, offs := s.w_dim_single_char * (j : Int), val := 0 }).bind fun v =>
        outer_loop s vec fuel (j + 1) v.sum
    else .ok sum

/-- Lines 171-195, `classify_example(num)`.  The result is the returned score
together with the members after the call.

`set_wd_weights` is only declared in the header (line 221); what it does to the
members is the parameter `set_wd_weights` (its `int32_t` result is dropped by
the caller at line 175).

The quotient of line 194 is the quotient of the field.  For
`normalization_const = 0` the `float64_t` division yields an infinity or a NaN,
which a field does not have: what is said about a returned score describes the
code for `normalization_const != 0` only. -/
def classify_example (set_wd_weights : CWDSVMOcas α → Except Err (CWDSVMOcas α))
    (s : CWDSVMOcas α) (num : Int) : Except Err (α × CWDSVMOcas α) :=
  match s.features with
  | none => .error .assertion
  | some _ =>
    (if s.wd_weights.isNone then set_wd_weights s else .ok s).bind fun s1 =>
    match s1.features with
    | none => .error .null_pointer
    | some feat =>
      (feat.get_feature_vector num).bind fun r =>
      if r.2 = s1.string_length then
        (outer_loop s1 r.1 s1.string_length.toNat 0 0).bind fun sum =>
          .ok (sum / s1.normalization_const, s1)
      else .error .assertion

/-- The range of `int32_t`. -/
def in_int32 (x : Int) : Prop := -2147483648 ≤ x ∧ x ≤ 2147483647

instance (x : Int) : Decidable (in_int32 x) := by
  unfold in_int32; infer_instance

/-- The result of an `int32_t` operation whose exact value is `x`: the value
itself inside the range of `int32_t`, a signed overflow outside. -/
def int32 (x : Int) : Except Err Int :=
  if in_int32 x then .ok x else .error .overflow

/-- The `int32_t` that two's complement hardware leaves where the exact value
`x` overflows. -/
def wrap32 (x : Int) : Int := (x + 2147483648) % 4294967296 - 2147483648

/-- Line 189 as `roll_val`, every `int32_t` operation checked: `j+k`,
`val*alphabet_size` and the sum with `vec[j+k]`. -/
def roll_val_int32 (s : CWDSVMOcas α) (vec : List Nat) (j k : Nat) (v : LoopVars α) :
    Except Err (LoopVars α) :=
  (int32 ((j : Int) + (k : Int))).bind fun i =>
  (read_at (some vec) i).bind fun c =>
  (int32 (v.val * s.alphabet_size)).bind fun m =>
  (int32 (m + (c : Int))).bind fun val =>
  .ok { v with val := val }

/-- Lines 189-191 as `inner_body`, every `int32_t` operation checked: those of
line 189, the subscript `offs+val` and `offs+=w_offsets[k]`. -/
def inner_body_int32 (s : CWDSVMOcas α) (vec : List Nat) (j k : Nat) (v : LoopVars α) :
    Except Err (LoopVars α) :=
  (roll_val_int32 s vec j k v).bind fun v1 =>
  (read_at s.wd_weights (k : Int)).bind fun wk =>
  (int32 (w_subscript v1)).bind fun idx =>
  (read_at s.w idx).bind fun wv =>
  (read_at s.w_offsets (k : Int)).bind fun ok =>
  (int32 (v1.offs + ok)).bind fun offs =>
  .ok { sum := v1.sum + wk * wv
        offs := offs
        val := v1.val }

/-- Line 187 as `inner_loop`, with the `j+k` of the guard and `k++` checked.
The first argument is fuel. -/
def inner_loop_int32 (s : CWDSVMOcas α) (vec : List Nat) (j : Nat) :
    Nat → Nat → LoopVars α → Except Err (LoopVars α)
  | 0, k, v =>
    (int32 ((j : Int) + (k : Int))).bind fun i =>
    if i < s.string_length ∧ (k : Int) < s.degree then .error .fuel else .ok v
  | fuel + 1, k, v =>
    (int32 ((j : Int) + (k : Int))).bind fun i =>
    if i < s.string_length ∧ (k : Int) < s.degree then
      (inner_body_int32 s vec j k v).bind fun v1 =>
      (int32 ((k : Int) + 1)).bind fun _ => inner_loop_int32 s vec j fuel (k + 1) v1
    else .ok v

/-- Lines 183-193 as `outer_loop`, with the product `w_dim_single_char*j` of
line 185 and `j++` checked.  The first argument is fuel. -/
def outer_loop_int32 (s : CWDSVMOcas α) (vec : List Nat) : Nat → Nat → α → Except Err α
  | 0, j, sum =>
    if (j : Int) < s.string_length then .error .fuel else .ok sum
  | fuel + 1, j, sum =>
    if (j : Int) < s.string_length then
      (int32 (s.w_dim_single_char * (j : Int))).bind fun offs =>
      (inner_loop_int32 s vec j s.string_length.toNat 0
          { sum := sum, offs := offs, val := 0 }).bind fun v =>
      (int32 ((j : Int) + 1)).bind fun _ => outer_loop_int32 s vec fuel (j + 1) v.sum
    else .ok sum

/-- Lines 171-195 as `classify_example`, over the loops that check the
`int32_t` operations. -/
def classify_example_int32 (set_wd_weights : CWDSVMOcas α → Except Err (CWDSVMOcas α))
    (s : CWDSVMOcas α) (num : Int) : Except Err (α × CWDSVMOcas α) :=
  match s.features with
  | none => .error .assertion
  | some _ =>
    (if s.wd_weights.isNone then set_wd_weights s else .ok s).bind fun s1 =>
    match s1.features with
    | none => .error .null_pointer
    | some feat =>
      (feat.get_feature_vector num).bind fun r =>
      if r.2 = s1.string_length then
        (outer_loop_int32 s1 r.1 s1.string_length.toNat 0 0).bind fun sum =>
          .ok (sum / s1.normalization_const, s1)
      else .error .assertion

/-- Lines 202-203, `for (int32_t i=0; i<degree; i++)
normalization_const+=(string_length-i)*wd_weights[i]*wd_weights[i];`, from the
index `i` on; `acc` is the value of `normalization_const`.  The first argument
is fuel. -/
def norm_loop (s : CWDSVMOcas α) : Nat → Nat → α → Except Err α
  | 0, i, acc =>
    if (i : Int) < s.degree then .error .fuel else .ok acc
  | fuel + 1, i, acc =>
    if (i : Int) < s.degree then
      (read_at s.wd_weights (i : Int)).bind fun x =>
        norm_loop s fuel (i + 1) (acc + ((s.string_length - (i : Int) : Int) : α) * x * x)
    else .ok acc

/-- Lines 198-207, `set_normalization_const()`.  `CMath::sqrt` is defined
outside this header and is the parameter `sqrt`. -/
def set_normalization_const (sqrt : α → α) (s : CWDSVMOcas α) :
    Except Err (CWDSVMOcas α) :=
  match s.features with
  | none => .error .assertion
  | some _ =>
    (norm_loop s s.degree.toNat 0 0).bind fun acc =>
      .ok { s with normalization_const := sqrt acc }

/-- Lines 202-203 with the rounding of the `float32_t` products written out:
`(string_length-i)*wd_weights[i]` is a `float32_t` and so is its product with
`wd_weights[i]`; `fl` is the rounding of a real to `float32_t`.  The `float64_t`
addition is kept exact.  With `fl` the identity this is `norm_loop`. -/
def norm_loop_fl (fl : α → α) (s : CWDSVMOcas α) : Nat → Nat → α → Except Err α
  | 0, i, acc =>
    if (i : Int) < s.degree then .error .fuel else .ok acc
  | fuel + 1, i, acc =>
    if (i : Int) < s.degree then
      (read_at s.wd_weights (i : Int)).bind fun x =>
        norm_loop_fl fl s fuel (i + 1)
          (acc + fl (fl (((s.string_length - (i : Int) : Int) : α) * x) * x))
    else .ok acc

/-- Lines 198-207, `set_normalization_const()`, over `norm_loop_fl`. -/
def set_normalization_const_fl (fl sqrt : α → α) (s : CWDSVMOcas α) :
    Except Err (CWDSVMOcas α) :=
  match s.features with
  | none => .error .assertion
  | some _ =>
    (norm_loop_fl fl s s.degree.toNat 0 0).bind fun acc =>
      .ok { s with normalization_const := sqrt acc }

end scorer

/-- A small classifier over the alphabet of size 2: strings of length 2,
degree 2, one block of `2 + 4` slots per position. -/
def demo_in (α : Type) [Field α] : CWDSVMOcas α where
  features := some ⟨[[0, 1], [1, 1]]⟩
  use_bias := true
  bufsize := 3000
  C1 := 1
  C2 := 1
  epsilon := 1 / 1000
  method := 0
  degree := 2
  from_degree := 2
  wd_weights := some [2, 1]
  num_vec := 2
  string_length := 2
  alphabet_size := 2
  normalization_const := 3
  bias := 5
  old_bias := 0
  w_offsets := some [2, 4]
  w_dim := 12
  w_dim_single_char := 6
  w := some [1, 2, 3, 4, 5, 6, 7, 8, 9, 10, 11, 12]
  old_w := none
  lab := none
  cuts := none
  cp_bias := none

/-- The classifier `demo_in` over the rationals. -/
def demo : CWDSVMOcas ℚ := demo_in ℚ

/-- A classifier whose cached tables belong to degree `2`: strings of length
`4` over the alphabet of size `2`, weights `[1, 2]`, and the normalization
constant `4`, the square root of `4*1*1 + 3*2*2`. -/
def cached2 : CWDSVMOcas ℚ where
  features := some ⟨[[0, 1, 1, 0]]⟩
  use_bias := false
  bufsize := 3000
  C1 := 1
  C2 := 1
  epsilon := 1 / 1000
  method := 0
  degree := 2
  from_degree := 2
  wd_weights := some [1, 2]
  num_vec := 1
  string_length := 4
  alphabet_size := 2
  normalization_const := 4
  bias := 0
  old_bias := 0
  w_offsets := some [2, 4]
  w_dim := 24
  w_dim_single_char := 6
  w := some [1, 2, 3, 4, 5, 6, 7, 8, 9, 10, 11, 12, 13, 14, 15, 16, 17, 18, 19, 20, 21, 22,
    23, 24]
  old_w := none
  lab := none
  cuts := none
  cp_bias := none

/-- A weight vector of `3 * 2146735440` slots, all `0`. -/
def wide_w : List ℚ := List.replicate 6440206320 0

/-- A classifier with the standard tables for alphabet size `215` and degree
`4` (strides `215^(k+1)`, blocks of `215 + 215^2 + 215^3 + 215^4 = 2146735440`
slots) on strings of length `3`; every member is in the range of `int32_t`
(`w_dim` holds the `int32_t` that the product `3 * 2146735440` wraps to). -/
def wide : CWDSVMOcas ℚ where
  features := some ⟨[[1, 0, 1]]⟩
  use_bias := false
  bufsize := 3000
  C1 := 1
  C2 := 1
  epsilon := 1 / 1000
  method := 0
  degree := 4
  from_degree := 4
  wd_weights := some [1, 1, 1, 1]
  num_vec := 1
  string_length := 3
  alphabet_size := 215
  normalization_const := 1
  bias := 0
  old_bias := 0
  w_offsets := some [215, 46225, 9938375, 2136750625]
  w_dim := 2145239024
  w_dim_single_char := 2146735440
  w := some wide_w
  old_w := none
  lab := none
  cuts := none
  cp_bias := none

section closed_forms

variable {α : Type} [Field α]

/-- The value of `val` after `n` rounds of the inner loop at position `j`
(line 189): it starts at `0` and every round maps it to
`val*alphabet_size + vec[j+k]`. -/
def rolled_val (A : Int) (vec : List Nat) (j : Nat) : Nat → Int
  | 0 => 0
  | n + 1 => rolled_val A vec j n * A + (vec.getD (j + n) 0 : Int)

/-- The base-`A` encoding of the `(k+1)`-mer starting at `j`:
the sum over `i` in `[0, k]` of `vec[j+i] * A^(k-i)`. -/
def kmer_val (A : Int) (vec : List Nat) (j k : Nat) : Int :=
  ∑ i in Finset.range (k + 1), (vec.getD (j + i) 0 : Int) * A ^ (k - i)

/-- The sum `w_offsets[0] + ... + w_offsets[k-1]` of the first `k` strides. -/
def stride_sum (woff : List Int) (k : Nat) : Int :=
  ∑ i in Finset.range k, woff.getD i 0

/-- The slot `j*w_dim_single_char + (w_offsets[0] + ... + w_offsets[k-1]) + val`. -/
def slot (wdsc : Int) (woff : List Int) (j k : Nat) (val : Int) : Int :=
  wdsc * (j : Int) + stride_sum woff k + val

/-- The slot of the `(k+1)`-mer of `vec` starting at `j`, for the tables of `s`. -/
def slot_index (s : CWDSVMOcas α) (woff : List Int) (vec : List Nat) (j k : Nat) : Int :=
  slot s.w_dim_single_char woff j k (kmer_val s.alphabet_size vec j k)

/-- The number `min(degree, string_length - j)` of rounds of the inner loop at
position `j`. -/
def kmer_count (s : CWDSVMOcas α) (j : Nat) : Nat :=
  min s.degree.toNat (s.string_length.toNat - j)

/-- The part of the sum that position `j` contributes: the sum over `k` in
`[0, min(degree, L-j))` of `wd_weights[k] * w[slot_index j k]`. -/
def position_sum (s : CWDSVMOcas α) (wd : List α) (woff : List Int) (w : List α)
    (vec : List Nat) (j : Nat) : α :=
  ∑ k in Finset.range (kmer_count s j),
    wd.getD k 0 * w.getD (slot_index s woff vec j k).toNat 0

/-- The sum `S`: over `j` in `[0, L)` and `k` in `[0, min(degree, L-j))` of
`wd_weights[k] * w[slot_index j k]`. -/
def score_sum (s : CWDSVMOcas α) (wd : List α) (woff : List Int) (w : List α)
    (vec : List Nat) : α :=
  ∑ j in Finset.range s.string_length.toNat, position_sum s wd woff w vec j

/-- The loop variables after `n` rounds of the inner loop at position `j`,
entered with the running sum `sum0`. -/
def vars_after (s : CWDSVMOcas α) (wd : List α) (woff : List Int) (w : List α)
    (vec : List Nat) (j : Nat) (sum0 : α) (n : Nat) : LoopVars α where
  sum := sum0 + ∑ k in Finset.range n, wd.getD k 0 * w.getD (slot_index s woff vec j k).toNat 0
  offs := s.w_dim_single_char * (j : Int) + stride_sum woff n
  val := rolled_val s.alphabet_size vec j n

/-- Every read of the scorer stays inside its block: for each position `j` and
each index `k` of the inner loop, `k` is an index of `wd_weights` and of
`w_offsets`, and the slot is an index of `w`. -/
def reads_in_bounds (s : CWDSVMOcas α) (wd : List α) (woff : List Int) (w : List α)
    (vec : List Nat) : Prop :=
  ∀ j < s.string_length.toNat, ∀ k < kmer_count s j,
    k < wd.length ∧ k < woff.length ∧
      0 ≤ slot_index s woff vec j k ∧ slot_index s woff vec j k < (w.length : Int)

instance (s : CWDSVMOcas α) (wd : List α) (woff : List Int) (w : List α) (vec : List Nat) :
    Decidable (reads_in_bounds s wd woff w vec) := by
  unfold reads_in_bounds; infer_instance

/-- The reads of the scorer at position `j` stay inside their blocks, `w`
holding `n` slots. -/
def reads_in_bounds_at (s : CWDSVMOcas α) (wd : List α) (woff : List Int) (n : Nat)
    (vec : List Nat) (j : Nat) : Prop :=
  ∀ k < kmer_count s j,
    k < wd.length ∧ k < woff.length ∧
      0 ≤ slot_index s woff vec j k ∧ slot_index s woff vec j k < (n : Int)

instance (s : CWDSVMOcas α) (wd : List α) (woff : List Int) (n : Nat) (vec : List Nat)
    (j : Nat) : Decidable (reads_in_bounds_at s wd woff n vec j) := by
  unfold reads_in_bounds_at; infer_instance

/-- No `int32_t` operation of the scorer overflows at position `j`: the product
`w_dim_single_char*j`, `j+1` and the last `j+k` of the guard, and for each index
`k` of the inner loop `val*alphabet_size`, the new `val`, the subscript
`offs+val` and the new `offs` are in the range of `int32_t`. -/
def int32_safe_at (s : CWDSVMOcas α) (woff : List Int) (vec : List Nat) (j : Nat) : Prop :=
  in_int32 (s.w_dim_single_char * (j : Int)) ∧ in_int32 ((j : Int) + 1)
    ∧ in_int32 ((j : Int) + (kmer_count s j : Int))
    ∧ ∀ k < kmer_count s j,
        in_int32 (rolled_val s.alphabet_size vec j k * s.alphabet_size)
          ∧ in_int32 (kmer_val s.alphabet_size vec j k)
          ∧ in_int32 (slot_index s woff vec j k)
          ∧ in_int32 (s.w_dim_single_char * (j : Int) + stride_sum woff (k + 1))

instance (s : CWDSVMOcas α) (woff : List Int) (vec : List Nat) (j : Nat) :
    Decidable (int32_safe_at s woff vec j) := by
  unfold int32_safe_at; infer_instance

/-- No `int32_t` operation of the scorer overflows, at any position. -/
def int32_safe (s : CWDSVMOcas α) (woff : List Int) (vec : List Nat) : Prop :=
  ∀ j < s.string_length.toNat, int32_safe_at s woff vec j

instance (s : CWDSVMOcas α) (woff : List Int) (vec : List Nat) :
    Decidable (int32_safe s woff vec) := by
  unfold int32_safe; infer_instance

/-- The value of `normalization_const` after `n` rounds of the loop of
`set_normalization_const`: the sum over `i` in `[0, n)` of
`(string_length - i) * wd_weights[i] * wd_weights[i]`. -/
def radicand (s : CWDSVMOcas α) (wd : List α) (n : Nat) : α :=
  ∑ i in Finset.range n, ((s.string_length - (i : Int) : Int) : α) * wd.getD i 0 * wd.getD i 0

/-- The slot as section 4.1 of the specification words it, for position `j`
and the 1-indexed degree `k`: `j*w_dim_single_char + offset[k] + value`, with
`offset[k]` the entry of the offsets table for degree `k` (stored at index
`k-1`) and `value` the encoding of the `k` symbols starting at `j`. -/
def spec_slot (wdsc : Int) (woff : List Int) (A : Int) (vec : List Nat) (j k : Nat) : Int :=
  wdsc * (j : Int) + woff.getD (k - 1) 0 + kmer_val A vec j (k - 1)

end closed_forms

/-! ## The loops of the scorer -/

theorem inner_guard_iff {α : Type} (s : CWDSVMOcas α) (j k : Nat) :
    ((j : Int) + (k : Int) < s.string_length ∧ (k : Int) < s.degree) ↔ k < kmer_count s j := by
  unfold kmer_count
  omega

/-- Whether the reads stay in bounds depends on `w` through its length only. -/
theorem reads_in_bounds_length {α : Type} (s : CWDSVMOcas α) (wd : List α) (woff : List Int)
    (w w1 : List α) (vec : List Nat) (hb : reads_in_bounds s wd woff w vec)
    (hlen : w1.length = w.length) : reads_in_bounds s wd woff w1 vec := by
  intro j hj k hk
  rw [hlen]
  exact hb j hj k hk

section loops

variable {α : Type} [Field α]

theorem read_at_some {β : Type} (xs : List β) (i : Int) (d : β)
    (h0 : 0 ≤ i) (h1 : i < (xs.length : Int)) :
    read_at (some xs) i = .ok (xs.getD i.toNat d) := by
  have hlt : i.toNat < xs.length := by omega
  have hneg : ¬ i < 0 := by omega
  simp [read_at, hneg, List.getElem?_eq_getElem hlt, List.getD_eq_getElem _ d hlt]

theorem read_at_nat {β : Type} (xs : List β) (k : Nat) (d : β) (h : k < xs.length) :
    read_at (some xs) (k : Int) = .ok (xs.getD k d) := by
  have := read_at_some xs (k : Int) d (by omega) (by omega)
  simpa using this

theorem read_at_some_cases {β : Type} (xs : List β) (i : Int) :
    read_at (some xs) i = .error .out_of_bounds ∨ ∃ x, read_at (some xs) i = .ok x := by
  unfold read_at
  by_cases h : i < 0
  · left; simp [h]
  · cases hx : xs[i.toNat]? with
    | none => left; simp [h, hx]
    | some x => right; exact ⟨x, by simp [h, hx]⟩

theorem rolled_val_succ (A : Int) (vec : List Nat) (j k : Nat) :
    rolled_val A vec j (k + 1) = kmer_val A vec j k := by
  induction k with
  | zero => simp [rolled_val, kmer_val]
  | succ n ih =>
    rw [rolled_val, ih, kmer_val, kmer_val, Finset.sum_range_succ _ (n + 1), Finset.sum_mul]
    simp only [Nat.sub_self, pow_zero, mul_one]
    congr 1
    apply Finset.sum_congr rfl
    intro i hi
    have hi1 : i ≤ n := by
      have := Finset.mem_range.mp hi
      omega
    rw [Nat.succ_sub hi1, pow_succ, mul_assoc]

theorem stride_sum_succ (woff : List Int) (k : Nat) :
    stride_sum woff (k + 1) = stride_sum woff k + woff.getD k 0 := by
  simp [stride_sum, Finset.sum_range_succ]

theorem inner_body_run (s : CWDSVMOcas α) (wd : List α) (woff : List Int) (w : List α)
    (vec : List Nat) (hwd : s.wd_weights = some wd) (hwoff : s.w_offsets = some woff)
    (hw : s.w = some w) (hlen : (vec.length : Int) = s.string_length)
    (hb : reads_in_bounds s wd woff w vec) (j : Nat) (sum0 : α) (k : Nat)
    (hk : k < kmer_count s j) :
    inner_body s vec j k (vars_after s wd woff w vec j sum0 k)
      = .ok (vars_after s wd woff w vec j sum0 (k + 1)) := by
  have hj : j < s.string_length.toNat := by unfold kmer_count at hk; omega
  obtain ⟨h1, h2, h3, h4⟩ := hb j hj k hk
  have hv : j + k < vec.length := by unfold kmer_count at hk; omega
  have r1 : roll_val s vec j k (vars_after s wd woff w vec j sum0 k)
      = .ok { vars_after s wd woff w vec j sum0 k with
              val := rolled_val s.alphabet_size vec j (k + 1) } := by
    have := read_at_nat vec (j + k) 0 hv
    simp only [Nat.cast_add] at this
    simp only [roll_val, this, Except.bind, rolled_val, vars_after]
  have hslot : w_subscript { vars_after s wd woff w vec j sum0 k with
      val := rolled_val s.alphabet_size vec j (k + 1) } = slot_index s woff vec j k := by
    simp only [w_subscript, vars_after, slot_index, slot, ← rolled_val_succ]
  unfold inner_body
  rw [r1, hwd, hwoff, hw]
  simp only [Except.bind]
  rw [hslot, read_at_nat wd k 0 h1, read_at_some w _ 0 h3 h4, read_at_nat woff k 0 h2]
  simp only [vars_after, Finset.sum_range_succ, stride_sum_succ, add_assoc]

theorem inner_loop_run (s : CWDSVMOcas α) (wd : List α) (woff : List Int) (w : List α)
    (vec : List Nat) (hwd : s.wd_weights = some wd) (hwoff : s.w_offsets = some woff)
    (hw : s.w = some w) (hlen : (vec.length : Int) = s.string_length)
    (hb : reads_in_bounds s wd woff w vec) (j : Nat) (sum0 : α) :
    ∀ (fuel k : Nat), kmer_count s j ≤ k + fuel → k ≤ kmer_count s j →
      inner_loop s vec j fuel k (vars_after s wd woff w vec j sum0 k)
        = .ok (vars_after s wd woff w vec j sum0 (kmer_count s j)) := by
  intro fuel
  induction fuel with
  | zero =>
    intro k h1 h2
    have hk : k = kmer_count s j := by omega
    have hg : ¬ ((j : Int) + (k : Int) < s.string_length ∧ (k : Int) < s.degree) := by
      rw [inner_guard_iff]; omega
    rw [inner_loop, if_neg hg, hk]
  | succ n ih =>
    intro k h1 h2
    by_cases hk : k < kmer_count s j
    · have hg : ((j : Int) + (k : Int) < s.string_length ∧ (k : Int) < s.degree) :=
        (inner_guard_iff s j k).mpr hk
      simp only [inner_loop, if_pos hg]
      rw [inner_body_run s wd woff w vec hwd hwoff hw hlen hb j sum0 k hk]
      simp only [Except.bind]
      exact ih (k + 1) (by omega) (by omega)
    · have hg : ¬ ((j : Int) + (k : Int) < s.string_length ∧ (k : Int) < s.degree) := by
        rw [inner_guard_iff]; exact hk
      have hk2 : k = kmer_count s j := by omega
      rw [inner_loop, if_neg hg, hk2]

theorem vars_after_zero (s : CWDSVMOcas α) (wd : List α) (woff : List Int) (w : List α)
    (vec : List Nat) (j : Nat) (sum0 : α) :
    vars_after s wd woff w vec j sum0 0
      = { sum := sum0, offs := s.w_dim_single_char * (j : Int), val := 0 } := by
  simp [vars_after, stride_sum, rolled_val]

theorem vars_after_sum (s : CWDSVMOcas α) (wd : List α) (woff : List Int) (w : List α)
    (vec : List Nat) (j : Nat) (sum0 : α) :
    (vars_after s wd woff w vec j sum0 (kmer_count s j)).sum
      = sum0 + position_sum s wd woff w vec j := rfl

theorem outer_loop_run (s : CWDSVMOcas α) (wd : List α) (woff : List Int) (w : List α)
    (vec : List Nat) (hwd : s.wd_weights = some wd) (hwoff : s.w_offsets = some woff)
    (hw : s.w = some w) (hlen : (vec.length : Int) = s.string_length)
    (hb : reads_in_bounds s wd woff w vec) :
    ∀ (fuel j : Nat), s.string_length.toNat ≤ j + fuel → j ≤ s.string_length.toNat →
      outer_loop s vec fuel j (∑ i in Finset.range j, position_sum s wd woff w vec i)
        = .ok (score_sum s wd woff w vec) := by
  intro fuel
  induction fuel with
  | zero =>
    intro j h1 h2
    have hj : j = s.string_length.toNat := by omega
    have hg : ¬ ((j : Int) < s.string_length) := by omega
    rw [outer_loop, if_neg hg, hj, score_sum]
  | succ n ih =>
    intro j h1 h2
    by_cases hj : (j : Int) < s.string_length
    · rw [outer_loop, if_pos hj, ← vars_after_zero s wd woff w vec j,
        inner_loop_run s wd woff w vec hwd hwoff hw hlen hb j _ s.string_length.toNat 0
          (by unfold kmer_count; omega) (Nat.zero_le _)]
      simp only [Except.bind, vars_after_sum, ← Finset.sum_range_succ]
      exact ih (j + 1) (by omega) (by omega)
    · have hj2 : j = s.string_length.toNat := by omega
      rw [outer_loop, if_neg hj, hj2, score_sum]

/-- The scorer on a state with features and `wd_weights` set, on an example of
the right length: the score is the running sum of the loops over
`normalization_const`. -/
theorem classify_example_ok (set_wd : CWDSVMOcas α → Except Err (CWDSVMOcas α))
    (s : CWDSVMOcas α) (num : Int) (feat : CStringFeatures) (wd : List α) (vec : List Nat) (S : α)
    (hf : s.features = some feat) (hwd : s.wd_weights = some wd)
    (hvec : feat.get_feature_vector num = .ok (vec, (vec.length : Int)))
    (hlen : (vec.length : Int) = s.string_length)
    (hS : outer_loop s vec s.string_length.toNat 0 0 = .ok S) :
    classify_example set_wd s num = .ok (S / s.normalization_const, s) := by
  unfold classify_example
  simp only [hf, hwd, Option.isNone_some, Bool.false_eq_true, if_false, Except.bind, hvec,
    hlen, if_true, hS]

/-- The scorer on a state whose tables are set and whose reads stay in bounds:
it returns `score_sum / normalization_const` and leaves the members as they
are. -/
theorem classify_example_run (set_wd : CWDSVMOcas α → Except Err (CWDSVMOcas α))
    (s : CWDSVMOcas α) (num : Int) (feat : CStringFeatures) (wd : List α)
    (woff : List Int) (w : List α) (vec : List Nat)
    (hf : s.features = some feat) (hwd : s.wd_weights = some wd)
    (hwoff : s.w_offsets = some woff) (hw : s.w = some w)
    (hvec : feat.get_feature_vector num = .ok (vec, (vec.length : Int)))
    (hlen : (vec.length : Int) = s.string_length)
    (hb : reads_in_bounds s wd woff w vec) :
    classify_example set_wd s num
      = .ok (score_sum s wd woff w vec / s.normalization_const, s) := by
  have hrun := outer_loop_run s wd woff w vec hwd hwoff hw hlen hb s.string_length.toNat 0
    (by omega) (Nat.zero_le _)
  rw [Finset.sum_range_zero] at hrun
  unfold classify_example
  simp only [hf, hwd, Option.isNone_some, Bool.false_eq_true, if_false, Except.bind, hvec,
    hlen, if_true, hrun]

/-- The provider hands out the stored string together with its length. -/
theorem get_feature_vector_ok (feat : CStringFeatures) (num : Int) (r : List Nat × Int)
    (h : feat.get_feature_vector num = .ok r) :
    feat.get_feature_vector num = .ok (r.1, (r.1.length : Int)) := by
  unfold CStringFeatures.get_feature_vector at h ⊢
  split at h
  · cases h
  · rename_i hneg
    rw [if_neg hneg]
    split at h
    · rename_i v hv
      cases h
      simp [hv]
    · cases h

theorem inner_loop_bias (s : CWDSVMOcas α) (b : Bool) (c : α) (vec : List Nat) (j : Nat) :
    ∀ (fuel k : Nat) (v : LoopVars α),
      inner_loop { s with use_bias := b, bias := c } vec j fuel k v = inner_loop s vec j fuel k v := by
  intro fuel
  induction fuel with
  | zero => intro k v; rfl
  | succ n ih =>
    intro k v
    simp only [inner_loop]
    split
    · have hb : inner_body { s with use_bias := b, bias := c } vec j k v = inner_body s vec j k v :=
        rfl
      rw [hb]
      congr 1
      funext v1
      exact ih (k + 1) v1
    · rfl

theorem outer_loop_bias (s : CWDSVMOcas α) (b : Bool) (c : α) (vec : List Nat) :
    ∀ (fuel j : Nat) (sum : α),
      outer_loop { s with use_bias := b, bias := c } vec fuel j sum = outer_loop s vec fuel j sum := by
  intro fuel
  induction fuel with
  | zero => intro j sum; rfl
  | succ n ih =>
    intro j sum
    simp only [outer_loop]
    split
    · rw [inner_loop_bias]
      congr 1
      funext v
      exact ih (j + 1) v.sum
    · rfl

theorem norm_loop_run (s : CWDSVMOcas α) (wd : List α) (hwd : s.wd_weights = some wd)
    (hlen : s.degree.toNat ≤ wd.length) :
    ∀ (fuel i : Nat), s.degree.toNat ≤ i + fuel → i ≤ s.degree.toNat →
      norm_loop s fuel i (radicand s wd i) = .ok (radicand s wd s.degree.toNat) := by
  intro fuel
  induction fuel with
  | zero =>
    intro i h1 h2
    have hi : i = s.degree.toNat := by omega
    have hg : ¬ ((i : Int) < s.degree) := by omega
    rw [norm_loop, if_neg hg, hi]
  | succ n ih =>
    intro i h1 h2
    by_cases hi : (i : Int) < s.degree
    · have hiw : i < wd.length := by omega
      rw [norm_loop, if_pos hi, hwd, read_at_nat wd i 0 hiw]
      simp only [Except.bind]
      have hstep : radicand s wd i
          + ((s.string_length - (i : Int) : Int) : α) * wd.getD i 0 * wd.getD i 0
          = radicand s wd (i + 1) := by
        simp [radicand, Finset.sum_range_succ]
      rw [hstep]
      exact ih (i + 1) (by omega) (by omega)
    · have hi2 : i = s.degree.toNat := by omega
      rw [norm_loop, if_neg hi, hi2]

theorem set_normalization_const_run (sqrt : α → α) (s : CWDSVMOcas α)
    (feat : CStringFeatures) (wd : List α) (hf : s.features = some feat)
    (hwd : s.wd_weights = some wd) (hlen : s.degree.toNat ≤ wd.length) :
    set_normalization_const sqrt s
      = .ok { s with normalization_const := sqrt (radicand s wd s.degree.toNat) } := by
  have h := norm_loop_run s wd hwd hlen s.degree.toNat 0 (by omega) (Nat.zero_le _)
  have h0 : radicand s wd 0 = 0 := by simp [radicand]
  rw [h0] at h
  unfold set_normalization_const
  simp only [hf, h, Except.bind]

theorem radicand_nonneg (s : CWDSVMOcas ℝ) (wd : List ℝ) (n : Nat)
    (hn : (n : Int) ≤ s.string_length) : 0 ≤ radicand s wd n := by
  unfold radicand
  apply Finset.sum_nonneg
  intro i hi
  have hi1 : i < n := Finset.mem_range.mp hi
  have hpos : (0 : ℝ) ≤ ((s.string_length - (i : Int) : Int) : ℝ) := by
    have : (0 : Int) ≤ s.string_length - (i : Int) := by omega
    exact_mod_cast this
  rw [mul_assoc]
  exact mul_nonneg hpos (mul_self_nonneg _)

/-! ### The fuel of the loops is never used up -/

theorem read_at_ne_fuel {β : Type} (p : Option (List β)) (i : Int) :
    read_at p i ≠ .error .fuel := by
  cases p with
  | none => simp [read_at]
  | some xs =>
    rcases read_at_some_cases xs i with h | ⟨x, h⟩
    · rw [h]; simp
    · rw [h]; simp

theorem inner_body_ne_fuel (s : CWDSVMOcas α) (vec : List Nat) (j k : Nat) (v : LoopVars α) :
    inner_body s vec j k v ≠ .error .fuel := by
  unfold inner_body roll_val
  cases h1 : read_at (some vec) ((j : Int) + (k : Int)) with
  | error e =>
    have := read_at_ne_fuel (some vec) ((j : Int) + (k : Int))
    rw [h1] at this
    simpa [Except.bind] using this
  | ok c =>
    simp only [Except.bind]
    cases h2 : read_at s.wd_weights (k : Int) with
    | error e =>
      have := read_at_ne_fuel s.wd_weights (k : Int)
      rw [h2] at this
      simpa using this
    | ok wk =>
      simp only []
      cases h3 : read_at s.w
          (w_subscript { v with val := v.val * s.alphabet_size + (c : Int) }) with
      | error e =>
        have := read_at_ne_fuel s.w
          (w_subscript { v with val := v.val * s.alphabet_size + (c : Int) })
        rw [h3] at this
        simpa using this
      | ok wv =>
        simp only []
        cases h4 : read_at s.w_offsets (k : Int) with
        | error e =>
          have := read_at_ne_fuel s.w_offsets (k : Int)
          rw [h4] at this
          simpa using this
        | ok o => simp

theorem inner_loop_ne_fuel (s : CWDSVMOcas α) (vec : List Nat) (j : Nat) :
    ∀ (fuel k : Nat) (v : LoopVars α), s.string_length.toNat ≤ j + k + fuel →
      inner_loop s vec j fuel k v ≠ .error .fuel := by
  intro fuel
  induction fuel with
  | zero =>
    intro k v h
    have hg : ¬ ((j : Int) + (k : Int) < s.string_length ∧ (k : Int) < s.degree) := by omega
    rw [inner_loop, if_neg hg]
    simp
  | succ n ih =>
    intro k v h
    rw [inner_loop]
    split
    · cases hb : inner_body s vec j k v with
      | error e =>
        have := inner_body_ne_fuel s vec j k v
        rw [hb] at this
        simpa [Except.bind] using this
      | ok v1 =>
        simp only [Except.bind]
        exact ih (k + 1) v1 (by omega)
    · simp

theorem outer_loop_ne_fuel (s : CWDSVMOcas α) (vec : List Nat) :
    ∀ (fuel j : Nat) (sum : α), s.string_length.toNat ≤ j + fuel →
      outer_loop s vec fuel j sum ≠ .error .fuel := by
  intro fuel
  induction fuel with
  | zero =>
    intro j sum h
    have hg : ¬ ((j : Int) < s.string_length) := by omega
    rw [outer_loop, if_neg hg]
    simp
  | succ n ih =>
    intro j sum h
    rw [outer_loop]
    split
    · cases hb : inner_loop s vec j s.string_length.toNat 0
          { sum := sum, offs := s.w_dim_single_char * (j : Int), val := 0 } with
      | error e =>
        have := inner_loop_ne_fuel s vec j s.string_length.toNat 0
          { sum := sum, offs := s.w_dim_single_char * (j : Int), val := 0 } (by omega)
        rw [hb] at this
        simpa [Except.bind] using this
      | ok v1 =>
        simp only [Except.bind]
        exact ih (j + 1) v1.sum (by omega)
    · simp

/-- The fuel handed to the loops by `classify_example` always suffices: the call
never ends for lack of fuel (provided the `set_wd_weights` handed in does not). -/
theorem classify_example_ne_fuel (set_wd : CWDSVMOcas α → Except Err (CWDSVMOcas α))
    (hset : ∀ s, set_wd s ≠ .error .fuel) (s : CWDSVMOcas α) (num : Int) :
    classify_example set_wd s num ≠ .error .fuel := by
  have tail : ∀ s1 : CWDSVMOcas α,
      (match s1.features with
        | none => (Except.error Err.null_pointer : Except Err (α × CWDSVMOcas α))
        | some feat =>
          (feat.get_feature_vector num).bind fun r =>
          if r.2 = s1.string_length then
            (outer_loop s1 r.1 s1.string_length.toNat 0 0).bind fun sum =>
              .ok (sum / s1.normalization_const, s1)
          else .error .assertion) ≠ .error .fuel := by
    intro s1
    cases s1.features with
    | none => simp
    | some feat =>
      simp only []
      cases hv : feat.get_feature_vector num with
      | error e =>
        have : e ≠ Err.fuel := by
          unfold CStringFeatures.get_feature_vector at hv
          split at hv
          · cases hv; simp
          · split at hv
            · cases hv
            · cases hv; simp
        simpa [Except.bind] using this
      | ok r =>
        simp only [Except.bind]
        split
        · cases ho : outer_loop s1 r.1 s1.string_length.toNat 0 0 with
          | error e =>
            have := outer_loop_ne_fuel s1 r.1 s1.string_length.toNat 0 0 (by omega)
            rw [ho] at this
            simpa using this
          | ok x => simp
        · simp
  unfold classify_example
  cases s.features with
  | none => simp
  | some f =>
    simp only []
    by_cases hw : s.wd_weights.isNone = true
    · simp only [hw, if_true]
      cases hres : set_wd s with
      | error e =>
        have := hset s
        rw [hres] at this
        simpa [Except.bind] using this
      | ok s1 =>
        simp only [Except.bind]
        exact tail s1
    · simp only [hw, Bool.false_eq_true, if_false, Except.bind]
      exact tail s

/-! ### The layout of one position's block of slots -/

theorem pow_stride_sum (A : Int) (D : Nat) (woff : List Int)
    (hoff : ∀ k < D, woff.getD k 0 = A ^ (k + 1)) (k : Nat) (hk : k ≤ D) :
    stride_sum woff k = ∑ i in Finset.range k, A ^ (i + 1) := by
  unfold stride_sum
  apply Finset.sum_congr rfl
  intro i hi
  exact hoff i (lt_of_lt_of_le (Finset.mem_range.mp hi) hk)

theorem pow_sum_mono (A : Int) (hA : 0 ≤ A) (k m : Nat) (hkm : k ≤ m) :
    ∑ i in Finset.range k, A ^ (i + 1) ≤ ∑ i in Finset.range m, A ^ (i + 1) := by
  apply Finset.sum_le_sum_of_subset_of_nonneg
  · exact Finset.range_mono hkm
  · intro i _ _
    exact pow_nonneg hA _

theorem pow_sum_Icc (A : Int) (D : Nat) :
    ∑ k in Finset.Icc 1 D, A ^ k = ∑ i in Finset.range D, A ^ (i + 1) := by
  rw [Finset.range_eq_Ico, Finset.sum_Ico_add' (fun k => A ^ k) 0 D 1]
  simp only [zero_add]
  rfl

/-- The part of a slot inside the block of its position lies in
`[0, w_dim_single_char)`, between the start of the sub-block of its `k` and the
start of the next one. -/
theorem block_bounds (A : Int) (hA : 1 ≤ A) (D : Nat) (woff : List Int)
    (hoff : ∀ k < D, woff.getD k 0 = A ^ (k + 1)) (k : Nat) (hk : k < D) (val : Int)
    (hv : 0 ≤ val ∧ val < A ^ (k + 1)) :
    ∑ i in Finset.range k, A ^ (i + 1) ≤ stride_sum woff k + val
      ∧ stride_sum woff k + val < ∑ i in Finset.range (k + 1), A ^ (i + 1)
      ∧ 0 ≤ stride_sum woff k + val
      ∧ stride_sum woff k + val < ∑ i in Finset.range D, A ^ (i + 1) := by
  have hA0 : (0 : Int) ≤ A := by omega
  have h1 := pow_stride_sum A D woff hoff k (le_of_lt hk)
  have h2 : ∑ i in Finset.range (k + 1), A ^ (i + 1)
      = ∑ i in Finset.range k, A ^ (i + 1) + A ^ (k + 1) := Finset.sum_range_succ _ _
  have h3 := pow_sum_mono A hA0 (k + 1) D hk
  have h4 : (0 : Int) ≤ ∑ i in Finset.range k, A ^ (i + 1) :=
    Finset.sum_nonneg fun i _ => pow_nonneg hA0 _
  obtain ⟨hv0, hv1⟩ := hv
  refine ⟨by omega, by omega, by omega, by omega⟩

theorem slot_injective (A : Int) (hA : 1 ≤ A) (D : Nat) (woff : List Int) (wdsc : Int)
    (hoff : ∀ k < D, woff.getD k 0 = A ^ (k + 1))
    (hdim : wdsc = ∑ k in Finset.Icc 1 D, A ^ k)
    (j k j1 k1 : Nat) (val val1 : Int) (hk : k < D) (hv : 0 ≤ val ∧ val < A ^ (k + 1))
    (hk1 : k1 < D) (hv1 : 0 ≤ val1 ∧ val1 < A ^ (k1 + 1))
    (h : slot wdsc woff j k val = slot wdsc woff j1 k1 val1) :
    j = j1 ∧ k = k1 ∧ val = val1 := by
  have hA0 : (0 : Int) ≤ A := by omega
  rw [pow_sum_Icc] at hdim
  obtain ⟨a1, a2, a3, a4⟩ := block_bounds A hA D woff hoff k hk val hv
  obtain ⟨b1, b2, b3, b4⟩ := block_bounds A hA D woff hoff k1 hk1 val1 hv1
  rw [← hdim] at a4 b4
  have hw0 : (0 : Int) ≤ wdsc := by omega
  unfold slot at h
  have hj : j = j1 := by
    rcases Nat.lt_trichotomy j j1 with hlt | heq | hgt
    · exfalso
      have hc : (0 : Int) ≤ (j1 : Int) - (j : Int) - 1 := by omega
      nlinarith [mul_nonneg hw0 hc]
    · exact heq
    · exfalso
      have hc : (0 : Int) ≤ (j : Int) - (j1 : Int) - 1 := by omega
      nlinarith [mul_nonneg hw0 hc]
  subst hj
  have hr : stride_sum woff k + val = stride_sum woff k1 + val1 := by omega
  have hkk : k = k1 := by
    rcases Nat.lt_trichotomy k k1 with hlt | heq | hgt
    · exfalso
      have := pow_sum_mono A hA0 (k + 1) k1 hlt
      omega
    · exact heq
    · exfalso
      have := pow_sum_mono A hA0 (k1 + 1) k hgt
      omega
  subst hkk
  exact ⟨rfl, rfl, by omega⟩

theorem inner_vars_run (s : CWDSVMOcas α) (wd : List α) (woff : List Int) (w : List α)
    (vec : List Nat) (hwd : s.wd_weights = some wd) (hwoff : s.w_offsets = some woff)
    (hw : s.w = some w) (hlen : (vec.length : Int) = s.string_length)
    (hb : reads_in_bounds s wd woff w vec) (j : Nat) (sum0 : α) :
    ∀ k : Nat, k ≤ kmer_count s j →
      inner_vars s vec j sum0 k = .ok (vars_after s wd woff w vec j sum0 k) := by
  intro k
  induction k with
  | zero => intro _; rw [inner_vars, vars_after_zero]
  | succ n ih =>
    intro hk
    rw [inner_vars, ih (by omega)]
    simp only [Except.bind]
    exact inner_body_run s wd woff w vec hwd hwoff hw hlen hb j sum0 n (by omega)

theorem roll_val_run (s : CWDSVMOcas α) (wd : List α) (woff : List Int) (w : List α)
    (vec : List Nat) (hlen : (vec.length : Int) = s.string_length) (j : Nat) (sum0 : α)
    (k : Nat) (hk : k < kmer_count s j) :
    roll_val s vec j k (vars_after s wd woff w vec j sum0 k)
      = .ok { vars_after s wd woff w vec j sum0 k with
              val := rolled_val s.alphabet_size vec j (k + 1) } := by
  have hv : j + k < vec.length := by unfold kmer_count at hk; omega
  have := read_at_nat vec (j + k) 0 hv
  simp only [Nat.cast_add] at this
  simp only [roll_val, this, Except.bind, rolled_val, vars_after]

theorem getD_zipWith_add (w1 w2 : List α) (h : w1.length = w2.length) (i : Nat) :
    (List.zipWith (· + ·) w1 w2).getD i 0 = w1.getD i 0 + w2.getD i 0 := by
  by_cases hi : i < w1.length
  · have hi2 : i < w2.length := h ▸ hi
    have hi3 : i < (List.zipWith (· + ·) w1 w2).length := by
      simp [List.length_zipWith, hi, hi2]
    rw [List.getD_eq_getElem _ 0 hi3, List.getD_eq_getElem _ 0 hi, List.getD_eq_getElem _ 0 hi2,
      List.getElem_zipWith]
  · have hi2 : ¬ i < w2.length := h ▸ hi
    have hi3 : (List.zipWith (· + ·) w1 w2).length ≤ i := by
      simp only [List.length_zipWith]
      omega
    rw [List.getD_eq_default _ 0 hi3, List.getD_eq_default _ 0 (by omega),
      List.getD_eq_default _ 0 (by omega), add_zero]

theorem getD_map_mul (c : α) (w : List α) (i : Nat) :
    (w.map (c * ·)).getD i 0 = c * w.getD i 0 := by
  by_cases hi : i < w.length
  · have hi2 : i < (w.map (c * ·)).length := by simpa using hi
    rw [List.getD_eq_getElem _ 0 hi2, List.getD_eq_getElem _ 0 hi, List.getElem_map]
  · rw [List.getD_eq_default _ 0 (by simpa using hi), List.getD_eq_default _ 0 (by omega),
      mul_zero]

theorem getD_replicate_zero (n i : Nat) : (List.replicate n (0 : α)).getD i 0 = 0 := by
  by_cases hi : i < n
  · have hi2 : i < (List.replicate n (0 : α)).length := by simpa using hi
    rw [List.getD_eq_getElem _ 0 hi2, List.getElem_replicate]
  · rw [List.getD_eq_default _ 0 (by simpa using hi)]

theorem score_sum_add (s : CWDSVMOcas α) (wd : List α) (woff : List Int) (w1 w2 : List α)
    (vec : List Nat) (h : w1.length = w2.length) :
    score_sum s wd woff (List.zipWith (· + ·) w1 w2) vec
      = score_sum s wd woff w1 vec + score_sum s wd woff w2 vec := by
  simp only [score_sum, position_sum, getD_zipWith_add w1 w2 h, mul_add, Finset.sum_add_distrib]

theorem score_sum_smul (s : CWDSVMOcas α) (wd : List α) (woff : List Int) (c : α) (w : List α)
    (vec : List Nat) :
    score_sum s wd woff (w.map (c * ·)) vec = c * score_sum s wd woff w vec := by
  simp only [score_sum, position_sum, getD_map_mul, Finset.mul_sum]
  apply Finset.sum_congr rfl
  intro j _
  apply Finset.sum_congr rfl
  intro k _
  ring

theorem score_sum_zero (s : CWDSVMOcas α) (wd : List α) (woff : List Int) (n : Nat)
    (vec : List Nat) :
    score_sum s wd woff (List.replicate n 0) vec = 0 := by
  simp only [score_sum, position_sum, getD_replicate_zero, mul_zero, Finset.sum_const_zero]

end loops

section bounds

variable {α : Type}

/-! ### The reads of the scorer under the standard tables -/

theorem rolled_val_bounds (A : Int) (hA : 1 ≤ A) (vec : List Nat) (j : Nat)
    (hsym : ∀ i : Nat, (vec.getD i 0 : Int) < A) (n : Nat) :
    0 ≤ rolled_val A vec j n ∧ rolled_val A vec j n < A ^ n := by
  induction n with
  | zero => simp [rolled_val]
  | succ m ih =>
    obtain ⟨h0, h1⟩ := ih
    have hc := hsym (j + m)
    have hc0 : (0 : Int) ≤ (vec.getD (j + m) 0 : Int) := Int.natCast_nonneg _
    have hA0 : (0 : Int) ≤ A := by omega
    have hmul : rolled_val A vec j m * A ≤ (A ^ m - 1) * A :=
      mul_le_mul_of_nonneg_right (by omega) hA0
    rw [rolled_val, pow_succ]
    constructor
    · exact add_nonneg (mul_nonneg h0 hA0) hc0
    · have : (A ^ m - 1) * A = A ^ m * A - A := by ring
      omega

theorem getD_lt_of_forall (A : Nat) (hA : 1 ≤ A) (vec : List Nat) (hsym : ∀ x ∈ vec, x < A)
    (i : Nat) : ((vec.getD i 0 : Nat) : Int) < (A : Int) := by
  by_cases hi : i < vec.length
  · rw [List.getD_eq_getElem _ 0 hi]
    exact_mod_cast hsym _ (List.getElem_mem _)
  · rw [List.getD_eq_default _ 0 (by omega)]
    exact_mod_cast hA

/-- With the strides `A^(k+1)`, blocks of `sum of A^k` slots, `w` of
`L * w_dim_single_char` slots and symbols below `A`, every read of the scorer
stays inside its block. -/
theorem reads_in_bounds_standard (s : CWDSVMOcas α) (A D L : Nat) (wd : List α)
    (woff : List Int) (w : List α) (vec : List Nat) (hA : 1 ≤ A)
    (hsA : s.alphabet_size = (A : Int)) (hsD : s.degree = (D : Int))
    (hsL : s.string_length = (L : Int))
    (hoff : ∀ k < D, woff.getD k 0 = s.alphabet_size ^ (k + 1))
    (hdim : s.w_dim_single_char = ∑ k in Finset.Icc 1 D, s.alphabet_size ^ k)
    (hwlen : (w.length : Int) = (L : Int) * s.w_dim_single_char)
    (hwdlen : wd.length = D) (hwofflen : woff.length = D)
    (hsym : ∀ x ∈ vec, x < A) :
    reads_in_bounds s wd woff w vec := by
  intro j hj k hk
  have hkD : k < D := by unfold kmer_count at hk; omega
  have hjL : j < L := by omega
  have hA1 : (1 : Int) ≤ s.alphabet_size := by omega
  have hs : ∀ i : Nat, (vec.getD i 0 : Int) < s.alphabet_size := by
    intro i
    rw [hsA]
    exact getD_lt_of_forall A hA vec hsym i
  have hval := rolled_val_bounds s.alphabet_size hA1 vec j hs (k + 1)
  rw [rolled_val_succ] at hval
  obtain ⟨_, _, b3, b4⟩ := block_bounds s.alphabet_size hA1 D woff hoff k hkD _ hval
  rw [← pow_sum_Icc, ← hdim] at b4
  have hw0 : (0 : Int) ≤ s.w_dim_single_char := by omega
  refine ⟨by omega, by omega, ?_, ?_⟩
  · unfold slot_index slot
    have := mul_nonneg hw0 (Int.natCast_nonneg j)
    omega
  · unfold slot_index slot
    rw [hwlen]
    have hc : (0 : Int) ≤ (L : Int) - (j : Int) - 1 := by omega
    nlinarith [mul_nonneg hw0 hc]

/-- With the standard tables, symbols below `A` and
`L * w_dim_single_char` within `int32_t`, no `int32_t` operation of the scorer
overflows. -/
theorem int32_safe_standard (s : CWDSVMOcas α) (A D L : Nat) (wd : List α)
    (woff : List Int) (w : List α) (vec : List Nat) (hA : 1 ≤ A) (hD : 1 ≤ D)
    (hsA : s.alphabet_size = (A : Int)) (hsD : s.degree = (D : Int))
    (hsL : s.string_length = (L : Int))
    (hoff : ∀ k < D, woff.getD k 0 = s.alphabet_size ^ (k + 1))
    (hdim : s.w_dim_single_char = ∑ k in Finset.Icc 1 D, s.alphabet_size ^ k)
    (hwlen : (w.length : Int) = (L : Int) * s.w_dim_single_char)
    (hwdlen : wd.length = D) (hwofflen : woff.length = D)
    (hsym : ∀ x ∈ vec, x < A)
    (hbound : (L : Int) * s.w_dim_single_char ≤ 2147483647) :
    int32_safe s woff vec := by
  have hb := reads_in_bounds_standard s A D L wd woff w vec hA hsA hsD hsL hoff hdim hwlen
    hwdlen hwofflen hsym
  have hA1 : (1 : Int) ≤ s.alphabet_size := by omega
  have hA0 : (0 : Int) ≤ s.alphabet_size := by omega
  have hdim2 : s.w_dim_single_char = ∑ i in Finset.range D, s.alphabet_size ^ (i + 1) := by
    rw [hdim, pow_sum_Icc]
  have hw1 : (1 : Int) ≤ s.w_dim_single_char := by
    have h := pow_sum_mono s.alphabet_size hA0 1 D hD
    rw [Finset.sum_range_one, zero_add, pow_one, ← hdim2] at h
    omega
  have hw0 : (0 : Int) ≤ s.w_dim_single_char := by omega
  have hLle : (L : Int) ≤ (L : Int) * s.w_dim_single_char := by
    have := mul_le_mul_of_nonneg_left hw1 (Int.natCast_nonneg L)
    omega
  intro j hj
  have hjL : j < L := by omega
  have hprod : s.w_dim_single_char * (j : Int) + s.w_dim_single_char
      ≤ (L : Int) * s.w_dim_single_char := by
    have hc : (0 : Int) ≤ (L : Int) - (j : Int) - 1 := by omega
    nlinarith [mul_nonneg hw0 hc]
  have hj0 : (0 : Int) ≤ s.w_dim_single_char * (j : Int) :=
    mul_nonneg hw0 (Int.natCast_nonneg j)
  have hkc : kmer_count s j ≤ L - j := by unfold kmer_count; omega
  unfold int32_safe_at
  refine ⟨by unfold in_int32; omega, by unfold in_int32; omega, by unfold in_int32; omega, ?_⟩
  intro k hk
  have hkD : k < D := by unfold kmer_count at hk; omega
  obtain ⟨_, _, h3, h4⟩ := hb j hj k hk
  rw [hwlen] at h4
  have hs : ∀ i : Nat, (vec.getD i 0 : Int) < s.alphabet_size := by
    intro i
    rw [hsA]
    exact getD_lt_of_forall A hA vec hsym i
  have hr := rolled_val_bounds s.alphabet_size hA1 vec j hs k
  have hr1 := rolled_val_bounds s.alphabet_size hA1 vec j hs (k + 1)
  have hroll : rolled_val s.alphabet_size vec j (k + 1)
      = rolled_val s.alphabet_size vec j k * s.alphabet_size
        + ((vec.getD (j + k) 0 : Nat) : Int) := rfl
  rw [rolled_val_succ] at hr1 hroll
  have hmul : (0 : Int) ≤ rolled_val s.alphabet_size vec j k * s.alphabet_size :=
    mul_nonneg hr.1 hA0
  have hc0 : (0 : Int) ≤ ((vec.getD (j + k) 0 : Nat) : Int) := Int.natCast_nonneg _
  have hst := pow_stride_sum s.alphabet_size D woff hoff k (le_of_lt hkD)
  have hst0 : (0 : Int) ≤ stride_sum woff k := by
    rw [hst]
    exact Finset.sum_nonneg fun i _ => pow_nonneg hA0 _
  have hst1 := pow_stride_sum s.alphabet_size D woff hoff (k + 1) hkD
  have hst1le := pow_sum_mono s.alphabet_size hA0 (k + 1) D hkD
  have hst1nn : (0 : Int) ≤ stride_sum woff (k + 1) := by
    rw [hst1]
    exact Finset.sum_nonneg fun i _ => pow_nonneg hA0 _
  have hslot : slot_index s woff vec j k
      = s.w_dim_single_char * (j : Int) + stride_sum woff k
        + kmer_val s.alphabet_size vec j k := rfl
  refine ⟨?_, ?_, ?_, ?_⟩
  · unfold in_int32; omega
  · unfold in_int32; omega
  · unfold in_int32; omega
  · unfold in_int32; omega

end bounds

section sums

variable {α : Type} [Field α]

/-! ### The pairs of position and degree index the scorer visits -/

theorem visit_sum_swap {M : Type} [AddCommMonoid M] (L D : Nat) (hDL : D ≤ L) (f : Nat → M) :
    ∑ j in Finset.range L, ∑ k in Finset.range (min D (L - j)), f k
      = ∑ k in Finset.range D, (L - k) • f k := by
  have hswap : ∑ j in Finset.range L, ∑ k in Finset.range (min D (L - j)), f k
      = ∑ k in Finset.range D, ∑ _j in Finset.range (L - k), f k := by
    apply Finset.sum_comm'
    intro j k
    simp only [Finset.mem_range]
    omega
  rw [hswap]
  apply Finset.sum_congr rfl
  intro k _
  rw [Finset.sum_const, Finset.card_range]

theorem visit_count (L D : Nat) (hDL : D ≤ L) (k : Nat) (hk : k < D) :
    ((Finset.range L).filter (fun j => k < min D (L - j))).card = L - k := by
  have : (Finset.range L).filter (fun j => k < min D (L - j)) = Finset.range (L - k) := by
    ext j
    simp only [Finset.mem_filter, Finset.mem_range]
    omega
  rw [this, Finset.card_range]

theorem visit_total (L D : Nat) (hDL : D ≤ L) :
    ∑ j in Finset.range L, min D (L - j) = D * L - D * (D - 1) / 2 := by
  have h1 : ∑ j in Finset.range L, min D (L - j) = ∑ k in Finset.range D, (L - k) := by
    have := visit_sum_swap L D hDL (fun _ => (1 : Nat))
    simpa using this
  have h2 : ∑ k in Finset.range D, (L - k) + ∑ k in Finset.range D, k = D * L := by
    rw [← Finset.sum_add_distrib]
    have : ∀ k ∈ Finset.range D, L - k + k = L := by
      intro k hk
      have := Finset.mem_range.mp hk
      omega
    rw [Finset.sum_congr rfl this, Finset.sum_const, Finset.card_range, smul_eq_mul]
  rw [Finset.sum_range_id] at h2
  omega

theorem visit_sq_sum (s : CWDSVMOcas α) (wd : List α)
    (hdeg : 0 ≤ s.degree ∧ s.degree ≤ s.string_length) :
    ∑ j in Finset.range s.string_length.toNat, ∑ k in Finset.range (kmer_count s j),
        wd.getD k 0 ^ 2
      = radicand s wd s.degree.toNat := by
  unfold kmer_count radicand
  rw [visit_sum_swap s.string_length.toNat s.degree.toNat (by omega)]
  apply Finset.sum_congr rfl
  intro k hk
  have hk1 := Finset.mem_range.mp hk
  have hcast : ((s.string_length.toNat - k : Nat) : α)
      = ((s.string_length - (k : Int) : Int) : α) := by
    have : ((s.string_length.toNat - k : Nat) : Int) = s.string_length - (k : Int) := by omega
    rw [← this, Int.cast_natCast]
  rw [nsmul_eq_mul, hcast]
  ring

/-! ### The normalization loop with and without rounding -/

theorem norm_loop_fl_id (s : CWDSVMOcas α) :
    ∀ (fuel i : Nat) (acc : α), norm_loop_fl id s fuel i acc = norm_loop s fuel i acc := by
  intro fuel
  induction fuel with
  | zero => intro i acc; rfl
  | succ n ih =>
    intro i acc
    simp only [norm_loop_fl, norm_loop, id]
    split
    · congr 1
      funext x
      exact ih (i + 1) _
    · rfl

theorem set_normalization_const_fl_id (sqrt : α → α) (s : CWDSVMOcas α) :
    set_normalization_const_fl id sqrt s = set_normalization_const sqrt s := by
  unfold set_normalization_const_fl set_normalization_const
  rw [norm_loop_fl_id]

/-! ### The sign of the radicand -/

theorem int32_ok (x : Int) (h : in_int32 x) : int32 x = .ok x := by
  simp [int32, h]

theorem int32_overflow (x : Int) (h : ¬ in_int32 x) : int32 x = .error .overflow := by
  simp [int32, h]

theorem bind_ok {ε β γ : Type} (a : β) (f : β → Except ε γ) :
    (Except.ok a : Except ε β).bind f = f a := rfl

theorem bind_error {ε β γ : Type} (e : ε) (f : β → Except ε γ) :
    (Except.error e : Except ε β).bind f = .error e := rfl

theorem inner_body_int32_run (s : CWDSVMOcas α) (wd : List α) (woff : List Int) (w : List α)
    (vec : List Nat) (hwd : s.wd_weights = some wd) (hwoff : s.w_offsets = some woff)
    (hw : s.w = some w) (hlen : (vec.length : Int) = s.string_length)
    (j : Nat) (hb : reads_in_bounds_at s wd woff w.length vec j)
    (hs : int32_safe_at s woff vec j) (sum0 : α) (k : Nat) (hk : k < kmer_count s j) :
    inner_body_int32 s vec j k (vars_after s wd woff w vec j sum0 k)
      = .ok (vars_after s wd woff w vec j sum0 (k + 1)) := by
  obtain ⟨h1, h2, h3, h4⟩ := hb k hk
  obtain ⟨_, _, a3, hks⟩ := hs
  obtain ⟨b1, b2, b3, b4⟩ := hks k hk
  have hv : j + k < vec.length := by unfold kmer_count at hk; omega
  have e1 : int32 ((j : Int) + (k : Int)) = .ok ((j : Int) + (k : Int)) :=
    int32_ok _ (by unfold in_int32 at a3 ⊢; omega)
  have e2 : read_at (some vec) ((j : Int) + (k : Int)) = .ok (vec.getD (j + k) 0) := by
    have := read_at_nat vec (j + k) 0 hv
    simpa only [Nat.cast_add] using this
  have e3 := int32_ok _ b1
  have hval : rolled_val s.alphabet_size vec j k * s.alphabet_size
      + ((vec.getD (j + k) 0 : Nat) : Int) = kmer_val s.alphabet_size vec j k := by
    rw [← rolled_val_succ, rolled_val]
  have e4 := int32_ok _ b2
  have hsub : s.w_dim_single_char * (j : Int) + stride_sum woff k
      + kmer_val s.alphabet_size vec j k = slot_index s woff vec j k := rfl
  have e5 := int32_ok _ b3
  have e6 := read_at_some w _ 0 h3 h4
  have e7 := read_at_nat wd k 0 h1
  have e8 := read_at_nat woff k 0 h2
  have hoffs : s.w_dim_single_char * (j : Int) + stride_sum woff k + woff.getD k 0
      = s.w_dim_single_char * (j : Int) + stride_sum woff (k + 1) := by
    rw [stride_sum_succ, add_assoc]
  have e9 := int32_ok _ b4
  simp only [inner_body_int32, roll_val_int32, vars_after, e1, e2, Except.bind, e3, hval, e4,
    w_subscript, hsub, e5, hw, e6, hwd, e7, hwoff, e8, hoffs, e9, Finset.sum_range_succ,
    rolled_val_succ, add_assoc]

theorem inner_loop_int32_run (s : CWDSVMOcas α) (wd : List α) (woff : List Int) (w : List α)
    (vec : List Nat) (hwd : s.wd_weights = some wd) (hwoff : s.w_offsets = some woff)
    (hw : s.w = some w) (hlen : (vec.length : Int) = s.string_length)
    (j : Nat) (hb : reads_in_bounds_at s wd woff w.length vec j)
    (hs : int32_safe_at s woff vec j) (sum0 : α) :
    ∀ (fuel k : Nat), kmer_count s j ≤ k + fuel → k ≤ kmer_count s j →
      inner_loop_int32 s vec j fuel k (vars_after s wd woff w vec j sum0 k)
        = .ok (vars_after s wd woff w vec j sum0 (kmer_count s j)) := by
  have a3 := hs.2.2.1
  have hjk : ∀ k : Nat, k ≤ kmer_count s j →
      int32 ((j : Int) + (k : Int)) = .ok ((j : Int) + (k : Int)) := by
    intro k hk
    exact int32_ok _ (by unfold in_int32 at a3 ⊢; omega)
  intro fuel
  induction fuel with
  | zero =>
    intro k h1 h2
    have hk : k = kmer_count s j := by omega
    have hg : ¬ ((j : Int) + (k : Int) < s.string_length ∧ (k : Int) < s.degree) := by
      rw [inner_guard_iff]; omega
    rw [inner_loop_int32, hjk k h2, bind_ok, if_neg hg, hk]
  | succ n ih =>
    intro k h1 h2
    by_cases hk : k < kmer_count s j
    · have hg : ((j : Int) + (k : Int) < s.string_length ∧ (k : Int) < s.degree) :=
        (inner_guard_iff s j k).mpr hk
      have hk1 : int32 ((k : Int) + 1) = .ok ((k : Int) + 1) :=
        int32_ok _ (by unfold in_int32 at a3 ⊢; omega)
      rw [inner_loop_int32, hjk k h2, bind_ok, if_pos hg,
        inner_body_int32_run s wd woff w vec hwd hwoff hw hlen j hb hs sum0 k hk, bind_ok, hk1,
        bind_ok]
      exact ih (k + 1) (by omega) (by omega)
    · have hg : ¬ ((j : Int) + (k : Int) < s.string_length ∧ (k : Int) < s.degree) := by
        rw [inner_guard_iff]; exact hk
      have hk2 : k = kmer_count s j := by omega
      rw [inner_loop_int32, hjk k h2, bind_ok, if_neg hg, hk2]

/-- One round of the checked outer loop at a position whose reads are in bounds
and whose `int32_t` operations do not overflow. -/
theorem outer_loop_int32_step (s : CWDSVMOcas α) (wd : List α) (woff : List Int) (w : List α)
    (vec : List Nat) (hwd : s.wd_weights = some wd) (hwoff : s.w_offsets = some woff)
    (hw : s.w = some w) (hlen : (vec.length : Int) = s.string_length)
    (j : Nat) (hj : (j : Int) < s.string_length)
    (hb : reads_in_bounds_at s wd woff w.length vec j)
    (hs : int32_safe_at s woff vec j) (fuel : Nat) :
    outer_loop_int32 s vec (fuel + 1) j (∑ i in Finset.range j, position_sum s wd woff w vec i)
      = outer_loop_int32 s vec fuel (j + 1)
          (∑ i in Finset.range (j + 1), position_sum s wd woff w vec i) := by
  rw [outer_loop_int32, if_pos hj, int32_ok _ hs.1, bind_ok,
    ← vars_after_zero s wd woff w vec j,
    inner_loop_int32_run s wd woff w vec hwd hwoff hw hlen j hb hs _
      s.string_length.toNat 0 (by unfold kmer_count; omega) (Nat.zero_le _),
    bind_ok, int32_ok _ hs.2.1, bind_ok, vars_after_sum, ← Finset.sum_range_succ]

theorem outer_loop_int32_run (s : CWDSVMOcas α) (wd : List α) (woff : List Int) (w : List α)
    (vec : List Nat) (hwd : s.wd_weights = some wd) (hwoff : s.w_offsets = some woff)
    (hw : s.w = some w) (hlen : (vec.length : Int) = s.string_length)
    (hb : reads_in_bounds s wd woff w vec) (hs : int32_safe s woff vec) :
    ∀ (fuel j : Nat), s.string_length.toNat ≤ j + fuel → j ≤ s.string_length.toNat →
      outer_loop_int32 s vec fuel j (∑ i in Finset.range j, position_sum s wd woff w vec i)
        = .ok (score_sum s wd woff w vec) := by
  intro fuel
  induction fuel with
  | zero =>
    intro j h1 h2
    have hj : j = s.string_length.toNat := by omega
    have hg : ¬ ((j : Int) < s.string_length) := by omega
    rw [outer_loop_int32, if_neg hg, hj, score_sum]
  | succ n ih =>
    intro j h1 h2
    by_cases hj : (j : Int) < s.string_length
    · have hjL : j < s.string_length.toNat := by omega
      rw [outer_loop_int32_step s wd woff w vec hwd hwoff hw hlen j hj (hb j hjL) (hs j hjL)]
      exact ih (j + 1) (by omega) (by omega)
    · have hj2 : j = s.string_length.toNat := by omega
      rw [outer_loop_int32, if_neg hj, hj2, score_sum]

/-- The checked outer loop ends with an overflow at the first position `j0`
whose product `w_dim_single_char*j0` leaves the range of `int32_t`, the
positions before it being free of overflow and of reads out of bounds. -/
theorem outer_loop_int32_overflow (s : CWDSVMOcas α) (wd : List α) (woff : List Int)
    (w : List α) (vec : List Nat) (hwd : s.wd_weights = some wd)
    (hwoff : s.w_offsets = some woff) (hw : s.w = some w)
    (hlen : (vec.length : Int) = s.string_length)
    (j0 : Nat) (hj0 : (j0 : Int) < s.string_length)
    (hpre : ∀ j < j0, reads_in_bounds_at s wd woff w.length vec j ∧ int32_safe_at s woff vec j)
    (hov : ¬ in_int32 (s.w_dim_single_char * (j0 : Int))) :
    ∀ (fuel j : Nat), j ≤ j0 → j0 < j + fuel →
      outer_loop_int32 s vec fuel j (∑ i in Finset.range j, position_sum s wd woff w vec i)
        = .error .overflow := by
  intro fuel
  induction fuel with
  | zero => intro j h1 h2; omega
  | succ n ih =>
    intro j h1 h2
    by_cases hj : j < j0
    · rw [outer_loop_int32_step s wd woff w vec hwd hwoff hw hlen j (by omega) (hpre j hj).1
        (hpre j hj).2]
      exact ih (j + 1) (by omega) (by omega)
    · have hjj : j = j0 := by omega
      subst hjj
      rw [outer_loop_int32, if_pos hj0, int32_overflow _ hov, bind_error]

/-- The checked scorer passes on the error its loops end with. -/
theorem classify_example_int32_error (set_wd : CWDSVMOcas α → Except Err (CWDSVMOcas α))
    (s : CWDSVMOcas α) (num : Int) (feat : CStringFeatures) (wd : List α) (vec : List Nat)
    (e : Err) (hf : s.features = some feat) (hwd : s.wd_weights = some wd)
    (hvec : feat.get_feature_vector num = .ok (vec, (vec.length : Int)))
    (hlen : (vec.length : Int) = s.string_length)
    (hloop : outer_loop_int32 s vec s.string_length.toNat 0 0 = .error e) :
    classify_example_int32 set_wd s num = .error e := by
  unfold classify_example_int32
  simp only [hf, hwd, Option.isNone_some, Bool.false_eq_true, if_false, Except.bind, hvec,
    hlen, if_true, hloop]

/-- Where the reads stay in bounds and no `int32_t` operation overflows, the
checked scorer returns what `classify_example` returns. -/
theorem classify_example_int32_run (set_wd : CWDSVMOcas α → Except Err (CWDSVMOcas α))
    (s : CWDSVMOcas α) (num : Int) (feat : CStringFeatures) (wd : List α)
    (woff : List Int) (w : List α) (vec : List Nat)
    (hf : s.features = some feat) (hwd : s.wd_weights = some wd)
    (hwoff : s.w_offsets = some woff) (hw : s.w = some w)
    (hvec : feat.get_feature_vector num = .ok (vec, (vec.length : Int)))
    (hlen : (vec.length : Int) = s.string_length)
    (hb : reads_in_bounds s wd woff w vec) (hs : int32_safe s woff vec) :
    classify_example_int32 set_wd s num
        = .ok (score_sum s wd woff w vec / s.normalization_const, s)
      ∧ classify_example_int32 set_wd s num = classify_example set_wd s num := by
  have hrun := outer_loop_int32_run s wd woff w vec hwd hwoff hw hlen hb hs
    s.string_length.toNat 0 (by omega) (Nat.zero_le _)
  rw [Finset.sum_range_zero] at hrun
  have h1 : classify_example_int32 set_wd s num
      = .ok (score_sum s wd woff w vec / s.normalization_const, s) := by
    unfold classify_example_int32
    simp only [hf, hwd, Option.isNone_some, Bool.false_eq_true, if_false, Except.bind, hvec,
      hlen, if_true, hrun]
  exact ⟨h1, by rw [h1, classify_example_run set_wd s num feat wd woff w vec hf hwd hwoff hw
    hvec hlen hb]⟩

end sums

/-! ## The claims -/

section claims

/-- Claim C1. For a state with features set and `wd_weights` initialised, and an
example `num` whose symbol vector `vec` has length `string_length`, with every
read of the scorer inside its block, `classify_example(num)` returns
`S / normalization_const` (and leaves the members as they are), where `S` is
the sum over `j` in `[0, L)` and `k` in `[0, min(degree, L-j))` of
`wd_weights[k] * w[j*w_dim_single_char + (w_offsets[0]+...+w_offsets[k-1]) + val(j,k)]`
and `val(j,k)` is the sum over `i` in `[0, k]` of `vec[j+i] * alphabet_size^(k-i)`;
the value rolled by `val=val*alphabet_size+vec[j+k]` equals that closed form. -/
theorem C1_classify_example_closed_form {α : Type} [Field α]
    (set_wd : CWDSVMOcas α → Except Err (CWDSVMOcas α))
    (s : CWDSVMOcas α) (num : Int) (feat : CStringFeatures) (wd : List α)
    (woff : List Int) (w : List α) (vec : List Nat)
    (hf : s.features = some feat) (hwd : s.wd_weights = some wd)
    (hwoff : s.w_offsets = some woff) (hw : s.w = some w)
    (hvec : feat.get_feature_vector num = .ok (vec, (vec.length : Int)))
    (hlen : (vec.length : Int) = s.string_length)
    (hb : reads_in_bounds s wd woff w vec) :
    classify_example set_wd s num
        = .ok ((∑ j in Finset.range s.string_length.toNat,
                ∑ k in Finset.range (min s.degree.toNat (s.string_length.toNat - j)),
                  wd.getD k 0 *
                    w.getD (s.w_dim_single_char * (j : Int)
                        + (∑ i in Finset.range k, woff.getD i 0)
                        + (∑ i in Finset.range (k + 1),
                            (vec.getD (j + i) 0 : Int) * s.alphabet_size ^ (k - i))).toNat 0)
              / s.normalization_const, s)
      ∧ ∀ j k : Nat, rolled_val s.alphabet_size vec j (k + 1)
          = ∑ i in Finset.range (k + 1), (vec.getD (j + i) 0 : Int) * s.alphabet_size ^ (k - i) :=
  ⟨classify_example_run set_wd s num feat wd woff w vec hf hwd hwoff hw hvec hlen hb,
    fun j k => rolled_val_succ s.alphabet_size vec j k⟩

/-- Claim C1 at the state `demo` and its example `0`, the string `[0, 1]`. -/
theorem C1_classify_example_closed_form_witness :
    classify_example (fun s => .ok s) demo 0
        = .ok ((∑ j in Finset.range demo.string_length.toNat,
                ∑ k in Finset.range (min demo.degree.toNat (demo.string_length.toNat - j)),
                  ([2, 1] : List ℚ).getD k 0 *
                    ([1, 2, 3, 4, 5, 6, 7, 8, 9, 10, 11, 12] : List ℚ).getD
                      (demo.w_dim_single_char * (j : Int)
                        + (∑ i in Finset.range k, ([2, 4] : List Int).getD i 0)
                        + (∑ i in Finset.range (k + 1),
                            (([0, 1] : List Nat).getD (j + i) 0 : Int)
                              * demo.alphabet_size ^ (k - i))).toNat 0)
              / demo.normalization_const, demo)
      ∧ ∀ j k : Nat, rolled_val demo.alphabet_size [0, 1] j (k + 1)
          = ∑ i in Finset.range (k + 1),
              (([0, 1] : List Nat).getD (j + i) 0 : Int) * demo.alphabet_size ^ (k - i) :=
  C1_classify_example_closed_form (fun s => .ok s) demo 0 ⟨[[0, 1], [1, 1]]⟩ [2, 1] [2, 4]
    [1, 2, 3, 4, 5, 6, 7, 8, 9, 10, 11, 12] [0, 1] rfl rfl rfl rfl (by decide) (by decide)
    (by decide)

/-- Claim C2. For a state with features set, `1 <= degree <= string_length` and
`wd_weights` holding at least `degree` entries, `set_normalization_const()`
(with the real square root) stores in `normalization_const` the square root of
the sum over `i` in `[0, degree)` of `(string_length - i) * wd_weights[i]^2`:
the stored value is non-negative, its square equals that sum, and
`get_normalization_const()` returns it. -/
theorem C2_normalization_const_is_sqrt (s : CWDSVMOcas ℝ) (feat : CStringFeatures)
    (wd : List ℝ) (hf : s.features = some feat) (hwd : s.wd_weights = some wd)
    (hdeg : 1 ≤ s.degree ∧ s.degree ≤ s.string_length)
    (hlen : s.degree.toNat ≤ wd.length) :
    ∃ s1, set_normalization_const Real.sqrt s = .ok s1
      ∧ s1 = { s with normalization_const := get_normalization_const s1 }
      ∧ get_normalization_const s1
          = Real.sqrt (∑ i in Finset.range s.degree.toNat,
              ((s.string_length - (i : Int) : Int) : ℝ) * wd.getD i 0 ^ 2)
      ∧ 0 ≤ get_normalization_const s1
      ∧ get_normalization_const s1 ^ 2
          = ∑ i in Finset.range s.degree.toNat,
              ((s.string_length - (i : Int) : Int) : ℝ) * wd.getD i 0 ^ 2 := by
  have hrad : radicand s wd s.degree.toNat
      = ∑ i in Finset.range s.degree.toNat,
          ((s.string_length - (i : Int) : Int) : ℝ) * wd.getD i 0 ^ 2 := by
    unfold radicand
    apply Finset.sum_congr rfl
    intro i _
    ring
  have hnn := radicand_nonneg s wd s.degree.toNat (by omega)
  refine ⟨_, set_normalization_const_run Real.sqrt s feat wd hf hwd hlen, rfl, ?_, ?_, ?_⟩
  · simp only [get_normalization_const, hrad]
  · exact Real.sqrt_nonneg _
  · simp only [get_normalization_const]
    rw [Real.sq_sqrt hnn, hrad]

/-- Claim C2 at the real-valued copy of `demo` (degree `2`, length `2`,
weights `[2, 1]`, radicand `2*4 + 1*1 = 9`). -/
theorem C2_normalization_const_is_sqrt_witness :
    ∃ s1, set_normalization_const Real.sqrt (demo_in ℝ) = .ok s1
      ∧ s1 = { demo_in ℝ with normalization_const := get_normalization_const s1 }
      ∧ get_normalization_const s1
          = Real.sqrt (∑ i in Finset.range (demo_in ℝ).degree.toNat,
              (((demo_in ℝ).string_length - (i : Int) : Int) : ℝ)
                * ([2, 1] : List ℝ).getD i 0 ^ 2)
      ∧ 0 ≤ get_normalization_const s1
      ∧ get_normalization_const s1 ^ 2
          = ∑ i in Finset.range (demo_in ℝ).degree.toNat,
              (((demo_in ℝ).string_length - (i : Int) : Int) : ℝ)
                * ([2, 1] : List ℝ).getD i 0 ^ 2 :=
  C2_normalization_const_is_sqrt (demo_in ℝ) ⟨[[0, 1], [1, 1]]⟩ [2, 1] rfl rfl
    (by decide) (by decide)

/-- Claim C3, refuted at `demo`: bias is enabled and `bias = 5`, the running sum
is `22` and `normalization_const = 3`; the returned score is `22 / 3`, not
`22 / 3 + 5`. -/
theorem C3_bias_added_counterexample :
    demo.use_bias = true
      ∧ outer_loop demo [0, 1] demo.string_length.toNat 0 0 = .ok 22
      ∧ classify_example (fun s => .ok s) demo 0 = .ok (22 / 3, demo)
      ∧ (22 / 3 : ℚ) ≠ 22 / demo.normalization_const + demo.bias := by
  refine ⟨rfl, ?_, ?_, ?_⟩
  · simp [demo, demo_in, outer_loop, inner_loop, inner_body, roll_val, w_subscript, read_at, Except.bind]
    norm_num
  · simp [classify_example, demo, demo_in, CStringFeatures.get_feature_vector, outer_loop, inner_loop,
      inner_body, roll_val, w_subscript, read_at, Except.bind]
    norm_num
  · simp [demo, demo_in]

/-- Claim C3, amended: the score is `running sum / normalization_const` whether
bias is enabled or not; neither `use_bias` nor `bias` enters it.  For a state
with features set and `wd_weights` initialised, an example of length
`string_length` and `S` the running sum the loops end with: for every value `b`
of `use_bias` and `c` of `bias` the call returns `S / normalization_const`. -/
theorem C3_score_ignores_bias {α : Type} [Field α]
    (set_wd : CWDSVMOcas α → Except Err (CWDSVMOcas α))
    (s : CWDSVMOcas α) (num : Int) (feat : CStringFeatures) (wd : List α) (vec : List Nat) (S : α)
    (hf : s.features = some feat) (hwd : s.wd_weights = some wd)
    (hvec : feat.get_feature_vector num = .ok (vec, (vec.length : Int)))
    (hlen : (vec.length : Int) = s.string_length)
    (hS : outer_loop s vec s.string_length.toNat 0 0 = .ok S) (b : Bool) (c : α) :
    classify_example set_wd { s with use_bias := b, bias := c } num
      = .ok (S / s.normalization_const, { s with use_bias := b, bias := c }) :=
  classify_example_ok set_wd { s with use_bias := b, bias := c } num feat wd vec S hf hwd hvec hlen
    (by rw [outer_loop_bias]; exact hS)

/-- Claim C3 (amended) at `demo`: with bias disabled and with bias `7` enabled
the score of example `0` is `22 / 3` both times. -/
theorem C3_score_ignores_bias_witness :
    classify_example (fun s => .ok s) { demo with use_bias := false, bias := 0 } 0
        = .ok (22 / demo.normalization_const, { demo with use_bias := false, bias := 0 })
      ∧ classify_example (fun s => .ok s) { demo with use_bias := true, bias := 7 } 0
        = .ok (22 / demo.normalization_const, { demo with use_bias := true, bias := 7 }) :=
  have hS : outer_loop demo [0, 1] demo.string_length.toNat 0 0 = .ok 22 := by
    simp [demo, demo_in, outer_loop, inner_loop, inner_body, roll_val, w_subscript, read_at, Except.bind]
    norm_num
  ⟨C3_score_ignores_bias (fun s => .ok s) demo 0 ⟨[[0, 1], [1, 1]]⟩ [2, 1] [0, 1] 22
      rfl rfl (by decide) (by decide) hS false 0,
    C3_score_ignores_bias (fun s => .ok s) demo 0 ⟨[[0, 1], [1, 1]]⟩ [2, 1] [0, 1] 22
      rfl rfl (by decide) (by decide) hS true 7⟩

/-- Claim C4. `classify_example(num)` ends with an assertion error when no
features are set, and returns no score when the symbol vector of `num` has a
length other than `string_length`, whatever `w`, `degree` and the tables hold:
the assertion `len==string_length` fails, unless `wd_weights` was unset and the
`set_wd_weights` run before the assertion ended with an error of its own.
`set_wd_weights` is assumed to leave `features` and `string_length` as they
are. -/
theorem C4_length_mismatch_fails {α : Type} [Field α]
    (set_wd : CWDSVMOcas α → Except Err (CWDSVMOcas α))
    (hframe : ∀ s s1, set_wd s = .ok s1 →
      s1.features = s.features ∧ s1.string_length = s.string_length)
    (s : CWDSVMOcas α) (num : Int) :
    (s.features = none → classify_example set_wd s num = .error .assertion)
      ∧ ∀ feat vec, s.features = some feat →
          feat.get_feature_vector num = .ok (vec, (vec.length : Int)) →
          (vec.length : Int) ≠ s.string_length →
            (∀ r, classify_example set_wd s num ≠ .ok r)
              ∧ (classify_example set_wd s num = .error .assertion
                  ∨ (s.wd_weights = none
                      ∧ ∃ e, set_wd s = .error e ∧ classify_example set_wd s num = .error e)) := by
  refine ⟨fun hf => by simp [classify_example, hf], ?_⟩
  intro feat vec hf hvec hne
  have main : classify_example set_wd s num = .error .assertion
      ∨ (s.wd_weights = none
          ∧ ∃ e, set_wd s = .error e ∧ classify_example set_wd s num = .error e) := by
    cases hw : s.wd_weights with
    | none =>
      cases hres : set_wd s with
      | error e =>
        right
        exact ⟨rfl, e, rfl, by simp [classify_example, hf, hw, hres, Except.bind]⟩
      | ok s1 =>
        left
        obtain ⟨h1, h2⟩ := hframe s s1 hres
        have hne1 : ¬ ((vec.length : Int) = s1.string_length) := by rw [h2]; exact hne
        simp [classify_example, hf, hw, hres, Except.bind, h1, hvec, hne1]
    | some wd =>
      left
      simp [classify_example, hf, hw, Except.bind, hvec, hne]
  refine ⟨?_, main⟩
  intro r hr
  rcases main with h | ⟨_, e, _, h⟩
  · rw [h] at hr; cases hr
  · rw [h] at hr; cases hr

/-- Claim C4 at `demo` with `string_length` set to `3` (the stored strings have
length `2`) and at `demo` without features: no score either time. -/
theorem C4_length_mismatch_fails_witness :
    classify_example (fun s => .ok s) { demo with features := none } 0 = .error .assertion
      ∧ ∀ r, classify_example (fun s => .ok s) { demo with string_length := 3 } 0 ≠ .ok r :=
  have h := C4_length_mismatch_fails (fun s => .ok s)
    (fun s s1 h => by cases h; exact ⟨rfl, rfl⟩)
  ⟨(h { demo with features := none } 0).1 rfl,
    ((h { demo with string_length := 3 } 0).2 ⟨[[0, 1], [1, 1]]⟩ [0, 1] rfl (by decide)
      (by decide)).1⟩

/-- Claim C5. For alphabet size `A >= 1`, degree `D >= 1` and string length
`L >= D`, with `w_offsets[k] = A^(k+1)` for `k` in `[0, D)` and
`w_dim_single_char` the sum over `k` in `[1, D]` of `A^k`, the slot
`j*w_dim_single_char + (w_offsets[0]+...+w_offsets[k-1]) + val` is injective on
the triples with `j` in `[0, L)`, `k` in `[0, D)` and `val` in `[0, A^(k+1))`. -/
theorem C5_slot_index_injective {α : Type} (s : CWDSVMOcas α) (A D L : Nat)
    (woff : List Int) (hA : 1 ≤ A) (_hD : 1 ≤ D) (_hL : D ≤ L)
    (hsA : s.alphabet_size = (A : Int)) (_hsD : s.degree = (D : Int))
    (_hsL : s.string_length = (L : Int)) (_hswoff : s.w_offsets = some woff)
    (_hlen : woff.length = D) (hoff : ∀ k < D, woff.getD k 0 = s.alphabet_size ^ (k + 1))
    (hdim : s.w_dim_single_char = ∑ k in Finset.Icc 1 D, s.alphabet_size ^ k)
    (j k j1 k1 : Nat) (val val1 : Int)
    (_hj : j < L) (hk : k < D) (hv : 0 ≤ val ∧ val < s.alphabet_size ^ (k + 1))
    (_hj1 : j1 < L) (hk1 : k1 < D) (hv1 : 0 ≤ val1 ∧ val1 < s.alphabet_size ^ (k1 + 1))
    (h : slot s.w_dim_single_char woff j k val = slot s.w_dim_single_char woff j1 k1 val1) :
    j = j1 ∧ k = k1 ∧ val = val1 :=
  slot_injective s.alphabet_size (by omega) D woff s.w_dim_single_char hoff hdim
    j k j1 k1 val val1 hk hv hk1 hv1 h

/-- Claim C5 at `demo` (`A = 2`, `D = 2`, `L = 2`, strides `[2, 4]`, block size
`6`): the slots of `(0, 1, 3)` and `(0, 1, 3)` agree, and the triple is
recovered. -/
theorem C5_slot_index_injective_witness :
    slot demo.w_dim_single_char [2, 4] 1 1 3 = slot demo.w_dim_single_char [2, 4] 1 1 3
      ∧ ((1 : Nat) = 1 ∧ (1 : Nat) = 1 ∧ (3 : Int) = 3) :=
  ⟨rfl, C5_slot_index_injective demo 2 2 2 [2, 4] (by decide) (by decide) (by decide)
    (by decide) (by decide) (by decide) rfl (by decide) (by decide) (by decide)
    1 1 1 1 3 3 (by decide) (by decide) (by decide) (by decide) (by decide) (by decide) rfl⟩

/-- Claim C6, refuted at `demo` on the string `[1, 1]`, position `0` and degree
`1`: the loop reads `w` at subscript `1` (offset `0` plus the value `1`), while
the claimed slot `j*w_dim_single_char + offset[1] + value` is `0 + 2 + 1 = 3`
for the table entry of degree `1`, and no entry `e` of the table `[2, 4]` makes
`j*w_dim_single_char + e + value` the subscript read. -/
theorem C6_slot_is_table_entry_counterexample :
    (inner_vars demo [1, 1] 0 0 (1 - 1)).bind (roll_val demo [1, 1] 0 (1 - 1))
        = .ok { sum := 0, offs := 0, val := 1 }
      ∧ w_subscript ({ sum := 0, offs := 0, val := 1 } : LoopVars ℚ) = 1
      ∧ spec_slot demo.w_dim_single_char [2, 4] demo.alphabet_size [1, 1] 0 1 = 3
      ∧ (∀ e ∈ ([2, 4] : List Int),
          demo.w_dim_single_char * 0 + e + kmer_val demo.alphabet_size [1, 1] 0 0 ≠ 1) := by
  refine ⟨?_, by decide, by decide, by decide⟩
  simp [inner_vars, roll_val, read_at, Except.bind, demo, demo_in]

/-- Claim C6, amended: for position `j` and the 1-indexed degree
`k <= min(degree, string_length - j)`, the subscript at which round `k` of the
inner loop reads `w` is
`j*w_dim_single_char + (w_offsets[0] + ... + w_offsets[k-2]) + value`: the
offset is the sum of the table entries of the lower degrees (`0` for `k = 1`),
and `value` is the base-`alphabet_size` encoding of the `k` symbols starting at
`j`. -/
theorem C6_slot_is_stride_sum {α : Type} [Field α] (s : CWDSVMOcas α) (wd : List α)
    (woff : List Int) (w : List α) (vec : List Nat)
    (hwd : s.wd_weights = some wd) (hwoff : s.w_offsets = some woff) (hw : s.w = some w)
    (hlen : (vec.length : Int) = s.string_length)
    (hb : reads_in_bounds s wd woff w vec) (sum0 : α) (j k : Nat)
    (hk : 1 ≤ k ∧ k ≤ min s.degree.toNat (s.string_length.toNat - j)) :
    ∃ v1, (inner_vars s vec j sum0 (k - 1)).bind (roll_val s vec j (k - 1)) = .ok v1
      ∧ w_subscript v1
          = s.w_dim_single_char * (j : Int) + (∑ i in Finset.range (k - 1), woff.getD i 0)
            + ∑ i in Finset.range k, (vec.getD (j + i) 0 : Int) * s.alphabet_size ^ (k - 1 - i) := by
  have hk1 : k - 1 < kmer_count s j := by unfold kmer_count; omega
  have hk2 : k - 1 + 1 = k := by omega
  refine ⟨{ vars_after s wd woff w vec j sum0 (k - 1) with
      val := rolled_val s.alphabet_size vec j (k - 1 + 1) }, ?_, ?_⟩
  · rw [inner_vars_run s wd woff w vec hwd hwoff hw hlen hb j sum0 (k - 1) (le_of_lt hk1)]
    simp only [Except.bind]
    exact roll_val_run s wd woff w vec hlen j sum0 (k - 1) hk1
  · have hr := rolled_val_succ s.alphabet_size vec j (k - 1)
    rw [kmer_val, hk2] at hr
    simp only [w_subscript, vars_after, stride_sum, hk2, hr]

/-- Claim C6 (amended) at `demo`, string `[0, 1]`, position `0`, degree `2`. -/
theorem C6_slot_is_stride_sum_witness :
    ∃ v1, (inner_vars demo [0, 1] 0 0 (2 - 1)).bind (roll_val demo [0, 1] 0 (2 - 1)) = .ok v1
      ∧ w_subscript v1
          = demo.w_dim_single_char * ((0 : Nat) : Int)
            + (∑ i in Finset.range (2 - 1), ([2, 4] : List Int).getD i 0)
            + ∑ i in Finset.range 2,
                (([0, 1] : List Nat).getD (0 + i) 0 : Int) * demo.alphabet_size ^ (2 - 1 - i) :=
  C6_slot_is_stride_sum demo [2, 1] [2, 4] [1, 2, 3, 4, 5, 6, 7, 8, 9, 10, 11, 12] [0, 1]
    rfl rfl rfl (by decide) (by decide) 0 0 2 (by decide)

/-- Claim C7, refuted at `cached2`: its constant `4` is the one of degree `2`
(radicand `16`); after `set_degree(1, 1)` the tables and the constant are what
they were (not cleared, not recomputed) although the radicand of degree `1` is
`4`, and the following `classify_example` divides the running sum `42` by the
old constant `4`. -/
theorem C7_degree_invalidates_cache_counterexample :
    norm_loop cached2 cached2.degree.toNat 0 0 = .ok (cached2.normalization_const ^ 2)
      ∧ (set_degree 1 1 cached2).wd_weights = some [1, 2]
      ∧ (set_degree 1 1 cached2).w_offsets = some [2, 4]
      ∧ (set_degree 1 1 cached2).normalization_const = 4
      ∧ norm_loop (set_degree 1 1 cached2) (set_degree 1 1 cached2).degree.toNat 0 0 = .ok 4
      ∧ (set_degree 1 1 cached2).normalization_const ^ 2 ≠ 4
      ∧ classify_example (fun s => .ok s) (set_degree 1 1 cached2) 0
          = .ok (42 / 4, set_degree 1 1 cached2) := by
  refine ⟨?_, rfl, rfl, rfl, ?_, ?_, ?_⟩
  · simp [cached2, norm_loop, read_at, Except.bind]
    norm_num
  · simp [cached2, set_degree, norm_loop, read_at, Except.bind]
  · simp [cached2, set_degree]
    norm_num
  · simp [classify_example, cached2, set_degree, CStringFeatures.get_feature_vector,
      outer_loop, inner_loop, inner_body, roll_val, w_subscript, read_at, Except.bind]
    norm_num

/-- Claim C7, amended: `set_degree` and `set_bias_enabled` are plain setters.
`set_degree(d, from_d)` stores `degree` and `from_degree`, `set_bias_enabled(b)`
stores `use_bias`, and both leave `wd_weights`, `w_offsets`,
`w_dim_single_char` and `normalization_const` (and `w`) as they were. -/
theorem C7_setters_keep_cache {α : Type} (s : CWDSVMOcas α) (d from_d : Int) (b : Bool) :
    (get_degree (set_degree d from_d s) = d
        ∧ (set_degree d from_d s).from_degree = from_d
        ∧ (set_degree d from_d s).wd_weights = s.wd_weights
        ∧ (set_degree d from_d s).w_offsets = s.w_offsets
        ∧ (set_degree d from_d s).w_dim_single_char = s.w_dim_single_char
        ∧ get_normalization_const (set_degree d from_d s) = get_normalization_const s
        ∧ (set_degree d from_d s).w = s.w)
      ∧ (get_bias_enabled (set_bias_enabled b s) = b
        ∧ (set_bias_enabled b s).wd_weights = s.wd_weights
        ∧ (set_bias_enabled b s).w_offsets = s.w_offsets
        ∧ (set_bias_enabled b s).w_dim_single_char = s.w_dim_single_char
        ∧ get_normalization_const (set_bias_enabled b s) = get_normalization_const s
        ∧ (set_bias_enabled b s).w = s.w) :=
  ⟨⟨rfl, rfl, rfl, rfl, rfl, rfl, rfl⟩, ⟨rfl, rfl, rfl, rfl, rfl, rfl⟩⟩

/-- Claim C11. For a fixed string, fixed tables and a non-zero
`normalization_const`, the score of `classify_example` is linear in the weight
vector: for weight vectors `w1`, `w2` of one length (reads in bounds) and a
scalar `c`, the score for `w1 + w2` is the sum of the scores for `w1` and
`w2`, the score for `c*w1` is `c` times the score for `w1`, and the all-zero
weight vector scores `0`. -/
theorem C11_score_linear_in_w {α : Type} [Field α]
    (set_wd : CWDSVMOcas α → Except Err (CWDSVMOcas α))
    (s : CWDSVMOcas α) (num : Int) (feat : CStringFeatures) (wd : List α)
    (woff : List Int) (w1 w2 : List α) (c : α) (vec : List Nat)
    (hf : s.features = some feat) (hwd : s.wd_weights = some wd)
    (hwoff : s.w_offsets = some woff)
    (hvec : feat.get_feature_vector num = .ok (vec, (vec.length : Int)))
    (hlen : (vec.length : Int) = s.string_length)
    (_hnc : s.normalization_const ≠ 0) (hw12 : w1.length = w2.length)
    (hb : reads_in_bounds s wd woff w1 vec) :
    ∃ r1 r2 : α,
      classify_example set_wd { s with w := some w1 } num = .ok (r1, { s with w := some w1 })
        ∧ classify_example set_wd { s with w := some w2 } num
            = .ok (r2, { s with w := some w2 })
        ∧ classify_example set_wd { s with w := some (List.zipWith (· + ·) w1 w2) } num
            = .ok (r1 + r2, { s with w := some (List.zipWith (· + ·) w1 w2) })
        ∧ classify_example set_wd { s with w := some (w1.map (c * ·)) } num
            = .ok (c * r1, { s with w := some (w1.map (c * ·)) })
        ∧ classify_example set_wd { s with w := some (List.replicate w1.length 0) } num
            = .ok (0, { s with w := some (List.replicate w1.length 0) }) := by
  have run : ∀ w : List α, w.length = w1.length →
      classify_example set_wd { s with w := some w } num
        = .ok (score_sum s wd woff w vec / s.normalization_const, { s with w := some w }) :=
    fun w hw => classify_example_run set_wd { s with w := some w } num feat wd woff w vec
      hf hwd hwoff rfl hvec hlen (reads_in_bounds_length s wd woff w1 w vec hb hw)
  refine ⟨score_sum s wd woff w1 vec / s.normalization_const,
    score_sum s wd woff w2 vec / s.normalization_const, run w1 rfl, run w2 hw12.symm, ?_, ?_, ?_⟩
  · rw [run _ (by simp [List.length_zipWith, hw12]), score_sum_add s wd woff w1 w2 vec hw12,
      add_div]
  · rw [run _ (by simp), score_sum_smul, mul_div_assoc]
  · rw [run _ (by simp), score_sum_zero, zero_div]

/-- Claim C11 at `demo`, the weight vectors `[1, ..., 12]` and `[12, ..., 1]` and
the scalar `5`. -/
theorem C11_score_linear_in_w_witness :
    ∃ r1 r2 : ℚ,
      classify_example (fun s => .ok s)
          { demo with w := some [1, 2, 3, 4, 5, 6, 7, 8, 9, 10, 11, 12] } 0
          = .ok (r1, { demo with w := some [1, 2, 3, 4, 5, 6, 7, 8, 9, 10, 11, 12] })
        ∧ classify_example (fun s => .ok s)
            { demo with w := some [12, 11, 10, 9, 8, 7, 6, 5, 4, 3, 2, 1] } 0
            = .ok (r2, { demo with w := some [12, 11, 10, 9, 8, 7, 6, 5, 4, 3, 2, 1] })
        ∧ classify_example (fun s => .ok s)
            { demo with w := some (List.zipWith (· + ·) [1, 2, 3, 4, 5, 6, 7, 8, 9, 10, 11, 12]
                [12, 11, 10, 9, 8, 7, 6, 5, 4, 3, 2, 1]) } 0
            = .ok (r1 + r2,
                { demo with w := some (List.zipWith (· + ·)
                    [1, 2, 3, 4, 5, 6, 7, 8, 9, 10, 11, 12]
                    [12, 11, 10, 9, 8, 7, 6, 5, 4, 3, 2, 1]) })
        ∧ classify_example (fun s => .ok s)
            { demo with w := some (([1, 2, 3, 4, 5, 6, 7, 8, 9, 10, 11, 12] : List ℚ).map
                (5 * ·)) } 0
            = .ok (5 * r1,
                { demo with w := some (([1, 2, 3, 4, 5, 6, 7, 8, 9, 10, 11, 12] : List ℚ).map
                    (5 * ·)) })
        ∧ classify_example (fun s => .ok s)
            { demo with w := some (List.replicate
                ([1, 2, 3, 4, 5, 6, 7, 8, 9, 10, 11, 12] : List ℚ).length 0) } 0
            = .ok (0,
                { demo with w := some (List.replicate
                    ([1, 2, 3, 4, 5, 6, 7, 8, 9, 10, 11, 12] : List ℚ).length 0) }) :=
  C11_score_linear_in_w (fun s => .ok s) demo 0 ⟨[[0, 1], [1, 1]]⟩ [2, 1] [2, 4]
    [1, 2, 3, 4, 5, 6, 7, 8, 9, 10, 11, 12] [12, 11, 10, 9, 8, 7, 6, 5, 4, 3, 2, 1] 5 [0, 1]
    rfl rfl rfl (by decide) (by decide) (by simp [demo, demo_in]) (by decide) (by decide)

/-- Claim C14, refuted at `wide` (`A = 215`, `D = 4`, `L = 3`), a state that
meets every condition of the claim: the tables are the standard ones, `w` has
`L*w_dim_single_char` slots, the symbols `[1, 0, 1]` are below `A`.  At position
`j = 2` the product `w_dim_single_char*j = 4293470880` of line 185 is outside
`int32_t` and the checked scorer ends there; where the product wraps it is
`-1496416`, and the subscript `offs+val` of the read is negative. -/
theorem C14_no_out_of_bounds_read_counterexample :
    (1 ≤ wide.alphabet_size ∧ 1 ≤ wide.degree ∧ 1 ≤ wide.string_length)
      ∧ (wide.features = some ⟨[[1, 0, 1]]⟩ ∧ wide.wd_weights = some [1, 1, 1, 1]
          ∧ wide.w_offsets = some [215, 46225, 9938375, 2136750625] ∧ wide.w = some wide_w)
      ∧ (∀ k < 4, ([215, 46225, 9938375, 2136750625] : List Int).getD k 0
          = wide.alphabet_size ^ (k + 1))
      ∧ wide.w_dim_single_char = ∑ k in Finset.Icc 1 4, wide.alphabet_size ^ k
      ∧ (wide_w.length : Int) = wide.string_length * wide.w_dim_single_char
      ∧ (∀ x ∈ ([1, 0, 1] : List Nat), (x : Int) < wide.alphabet_size)
      ∧ classify_example_int32 (fun s => .ok s) wide 0 = .error .overflow
      ∧ ¬ in_int32 (wide.w_dim_single_char * 2)
      ∧ wrap32 (wide.w_dim_single_char * 2) = -1496416
      ∧ wrap32 (wide.w_dim_single_char * 2) + (([1, 0, 1] : List Nat).getD 2 0 : Int) < 0 := by
  have hwl : wide_w.length = 6440206320 := List.length_replicate _ _
  refine ⟨by decide, ⟨rfl, rfl, rfl, rfl⟩, by decide, by decide, ?_, by decide, ?_, by decide,
    by decide, by decide⟩
  · rw [hwl]
    decide
  · have hpre : ∀ j < 2,
        reads_in_bounds_at wide [1, 1, 1, 1] [215, 46225, 9938375, 2136750625]
            wide_w.length [1, 0, 1] j
          ∧ int32_safe_at wide [215, 46225, 9938375, 2136750625] [1, 0, 1] j := by
      rw [hwl]
      decide
    have hloop := outer_loop_int32_overflow wide [1, 1, 1, 1]
      [215, 46225, 9938375, 2136750625] wide_w [1, 0, 1] rfl rfl rfl (by decide) 2
      (by decide) hpre (by decide) wide.string_length.toNat 0 (by decide) (by decide)
    rw [Finset.sum_range_zero] at hloop
    exact classify_example_int32_error (fun s => .ok s) wide 0 ⟨[[1, 0, 1]]⟩ [1, 1, 1, 1]
      [1, 0, 1] Err.overflow rfl rfl (by decide) (by decide) hloop

/-- Claim C14, amended: for `A >= 1`, `D >= 1`, `L >= 1`, the standard tables
(`w_offsets[k] = A^(k+1)`, `w_dim_single_char` the sum of `A^k` for `k` in
`[1, D]`), `w` of length `L*w_dim_single_char`, `wd_weights` and `w_offsets` of
length `D`, a symbol vector of length `L = string_length` with all symbols
below `alphabet_size = A`, and `L*w_dim_single_char <= 2^31 - 1`: every read of
`classify_example` is in bounds (`k` indexes `wd_weights` and `w_offsets`,
`j+k` indexes `vec`, `0 <= offs+val < L*w_dim_single_char`), no `int32_t`
operation of the loops overflows, and the call returns a score. -/
theorem C14_no_out_of_bounds_read {α : Type} [Field α]
    (set_wd : CWDSVMOcas α → Except Err (CWDSVMOcas α))
    (s : CWDSVMOcas α) (num : Int) (A D L : Nat) (feat : CStringFeatures) (wd : List α)
    (woff : List Int) (w : List α) (vec : List Nat)
    (hA : 1 ≤ A) (hD : 1 ≤ D) (_hL : 1 ≤ L)
    (hsA : s.alphabet_size = (A : Int)) (hsD : s.degree = (D : Int))
    (hsL : s.string_length = (L : Int))
    (hf : s.features = some feat) (hwd : s.wd_weights = some wd)
    (hwoff : s.w_offsets = some woff) (hw : s.w = some w)
    (hoff : ∀ k < D, woff.getD k 0 = s.alphabet_size ^ (k + 1))
    (hdim : s.w_dim_single_char = ∑ k in Finset.Icc 1 D, s.alphabet_size ^ k)
    (hwlen : (w.length : Int) = (L : Int) * s.w_dim_single_char)
    (hwdlen : wd.length = D) (hwofflen : woff.length = D)
    (hvec : feat.get_feature_vector num = .ok (vec, (vec.length : Int)))
    (hlen : vec.length = L) (hsym : ∀ x ∈ vec, x < A)
    (hbound : (L : Int) * s.w_dim_single_char ≤ 2147483647) :
    (∀ j < L, ∀ k < min D (L - j),
        k < wd.length ∧ k < woff.length ∧ j + k < vec.length
          ∧ 0 ≤ slot_index s woff vec j k
          ∧ slot_index s woff vec j k < (L : Int) * s.w_dim_single_char)
      ∧ int32_safe s woff vec
      ∧ ∃ r, classify_example_int32 set_wd s num = .ok (r, s)
          ∧ classify_example set_wd s num = .ok (r, s) := by
  have hb := reads_in_bounds_standard s A D L wd woff w vec hA hsA hsD hsL hoff hdim hwlen
    hwdlen hwofflen hsym
  have hs := int32_safe_standard s A D L wd woff w vec hA hD hsA hsD hsL hoff hdim hwlen
    hwdlen hwofflen hsym hbound
  refine ⟨?_, hs, _, (classify_example_int32_run set_wd s num feat wd woff w vec hf hwd hwoff
    hw hvec (by omega) hb hs).1, classify_example_run set_wd s num feat wd woff w vec hf hwd
    hwoff hw hvec (by omega) hb⟩
  intro j hj k hk
  obtain ⟨h1, h2, h3, h4⟩ := hb j (by omega) k (by unfold kmer_count; omega)
  rw [hwlen] at h4
  exact ⟨h1, h2, by omega, h3, h4⟩

/-- Claim C14 (amended) at `demo` (`A = 2`, `D = 2`, `L = 2`, `12` slots) and its
example `0`. -/
theorem C14_no_out_of_bounds_read_witness :
    (∀ j < 2, ∀ k < min 2 (2 - j),
        k < ([2, 1] : List ℚ).length ∧ k < ([2, 4] : List Int).length
          ∧ j + k < ([0, 1] : List Nat).length
          ∧ 0 ≤ slot_index demo [2, 4] [0, 1] j k
          ∧ slot_index demo [2, 4] [0, 1] j k < ((2 : Nat) : Int) * demo.w_dim_single_char)
      ∧ int32_safe demo [2, 4] [0, 1]
      ∧ ∃ r, classify_example_int32 (fun s => .ok s) demo 0 = .ok (r, demo)
          ∧ classify_example (fun s => .ok s) demo 0 = .ok (r, demo) :=
  C14_no_out_of_bounds_read (fun s => .ok s) demo 0 2 2 2 ⟨[[0, 1], [1, 1]]⟩ [2, 1] [2, 4]
    [1, 2, 3, 4, 5, 6, 7, 8, 9, 10, 11, 12] [0, 1] (by decide) (by decide) (by decide)
    rfl rfl rfl rfl rfl rfl rfl (by decide) (by decide) (by decide) (by decide) (by decide)
    (by decide) (by decide) (by decide) (by decide)

/-- Claim C15. For `1 <= degree <= string_length = L` the double loop of
`classify_example` visits the degree index `k` at exactly `L - k` start
positions, `D*L - D*(D-1)/2` pairs in all, and the sum of `wd_weights[k]^2`
over the visited pairs `(j, k)` is the radicand, the sum over `i` in
`[0, degree)` of `(L - i)*wd_weights[i]^2`, that the loop of
`set_normalization_const` computes. -/
theorem C15_radicand_counts_visits {α : Type} [Field α] (s : CWDSVMOcas α) (wd : List α)
    (hwd : s.wd_weights = some wd) (hdeg : 1 ≤ s.degree ∧ s.degree ≤ s.string_length)
    (hlen : s.degree.toNat ≤ wd.length) :
    (∀ k < s.degree.toNat,
        ((Finset.range s.string_length.toNat).filter
          (fun j : Nat => (j : Int) + (k : Int) < s.string_length ∧ (k : Int) < s.degree)).card
          = s.string_length.toNat - k)
      ∧ ∑ j in Finset.range s.string_length.toNat, kmer_count s j
          = s.degree.toNat * s.string_length.toNat
            - s.degree.toNat * (s.degree.toNat - 1) / 2
      ∧ norm_loop s s.degree.toNat 0 0
          = .ok (∑ j in Finset.range s.string_length.toNat,
              ∑ k in Finset.range (kmer_count s j), wd.getD k 0 ^ 2)
      ∧ ∑ j in Finset.range s.string_length.toNat,
            ∑ k in Finset.range (kmer_count s j), wd.getD k 0 ^ 2
          = ∑ i in Finset.range s.degree.toNat,
              ((s.string_length - (i : Int) : Int) : α) * wd.getD i 0 ^ 2 := by
  have hDL : s.degree.toNat ≤ s.string_length.toNat := by omega
  have hsq := visit_sq_sum s wd ⟨by omega, hdeg.2⟩
  refine ⟨?_, ?_, ?_, ?_⟩
  · intro k hk
    rw [← visit_count s.string_length.toNat s.degree.toNat hDL k hk]
    congr 1
    apply Finset.filter_congr
    intro j _
    rw [inner_guard_iff, kmer_count]
  · exact visit_total s.string_length.toNat s.degree.toNat hDL
  · have h := norm_loop_run s wd hwd hlen s.degree.toNat 0 (by omega) (Nat.zero_le _)
    have h0 : radicand s wd 0 = 0 := by simp [radicand]
    rw [h0] at h
    rw [h, hsq]
  · rw [hsq, radicand]
    apply Finset.sum_congr rfl
    intro i _
    ring

/-- Claim C15 at `demo` (`D = 2`, `L = 2`, weights `[2, 1]`): index `0` is
visited twice and index `1` once, three pairs, and the squares sum to `9`. -/
theorem C15_radicand_counts_visits_witness :
    (∀ k < demo.degree.toNat,
        ((Finset.range demo.string_length.toNat).filter
          (fun j : Nat =>
            (j : Int) + (k : Int) < demo.string_length ∧ (k : Int) < demo.degree)).card
          = demo.string_length.toNat - k)
      ∧ ∑ j in Finset.range demo.string_length.toNat, kmer_count demo j
          = demo.degree.toNat * demo.string_length.toNat
            - demo.degree.toNat * (demo.degree.toNat - 1) / 2
      ∧ norm_loop demo demo.degree.toNat 0 0
          = .ok (∑ j in Finset.range demo.string_length.toNat,
              ∑ k in Finset.range (kmer_count demo j), ([2, 1] : List ℚ).getD k 0 ^ 2)
      ∧ ∑ j in Finset.range demo.string_length.toNat,
            ∑ k in Finset.range (kmer_count demo j), ([2, 1] : List ℚ).getD k 0 ^ 2
          = ∑ i in Finset.range demo.degree.toNat,
              ((demo.string_length - (i : Int) : Int) : ℚ) * ([2, 1] : List ℚ).getD i 0 ^ 2 :=
  C15_radicand_counts_visits demo [2, 1] rfl (by decide) (by decide)

/-- Claim C13. `set_C`, `set_epsilon` and `set_bufsize` are plain get/set
pairs: the getters return what was set, and each setter leaves the other
hyperparameters and every other member (`w`, `bias`, the cached tables, ...)
unchanged. -/
theorem C13_hyperparameter_accessors {α : Type} (s : CWDSVMOcas α) (c1 c2 eps : α) (sz : Int) :
    (get_C1 (set_C c1 c2 s) = c1 ∧ get_C2 (set_C c1 c2 s) = c2
        ∧ get_epsilon (set_C c1 c2 s) = get_epsilon s
        ∧ get_bufsize (set_C c1 c2 s) = get_bufsize s
        ∧ other_members (set_C c1 c2 s) = other_members s)
      ∧ (get_epsilon (set_epsilon eps s) = eps
        ∧ get_C1 (set_epsilon eps s) = get_C1 s ∧ get_C2 (set_epsilon eps s) = get_C2 s
        ∧ get_bufsize (set_epsilon eps s) = get_bufsize s
        ∧ other_members (set_epsilon eps s) = other_members s)
      ∧ (get_bufsize (set_bufsize sz s) = sz
        ∧ get_C1 (set_bufsize sz s) = get_C1 s ∧ get_C2 (set_bufsize sz s) = get_C2 s
        ∧ get_epsilon (set_bufsize sz s) = get_epsilon s
        ∧ other_members (set_bufsize sz s) = other_members s) :=
  ⟨⟨rfl, rfl, rfl, rfl, rfl⟩, ⟨rfl, rfl, rfl, rfl, rfl⟩, ⟨rfl, rfl, rfl, rfl, rfl⟩⟩

end claims

end WDSVMOcas
